import Mathlib

set_option maxRecDepth 4000

/-
  Verification development for the WhatsApp chat analysis repository
  (src/app.py and src/helper.py).  Strings are modelled as lists of
  characters; pandas DataFrames as lists of records; machine floats
  appear only in the percentage column of most_busy_users, modelled
  as exact rationals with round-half-to-even; file I/O (the stop-word
  list) and external data tables (the emoji table) are passed as
  explicit parameters.  Total Lean functions model the non-raising
  Python code paths; Python exceptions that the source catches are
  modelled by the corresponding Option/branch structure.
-/

namespace WA

abbrev Chars := List Char

/-- Characters of Python's whitespace class, as matched by the regex
class backslash-s on str patterns and by str.split with no arguments
(ASCII whitespace plus the Unicode whitespace code points). -/
def isPySpace (c : Char) : Bool :=
  c = ' ' || c = '\t' || c = '\n' || c = '\r' || c = '\x0b' || c = '\x0c' ||
  c = '\x1c' || c = '\x1d' || c = '\x1e' || c = '\x1f' || c = '\x85' ||
  c = '\xa0' || c = ' ' || c = ' ' || c = ' ' || c = ' ' ||
  c = ' ' || c = ' ' || c = ' ' || c = ' ' || c = ' ' ||
  c = ' ' || c = ' ' || c = ' ' || c = ' ' || c = ' ' ||
  c = ' ' || c = ' ' || c = '　'

/-- Word characters of the regex class backslash-w (ASCII fragment:
letters, digits and underscore), used by the punctuation-stripping
substitution in the word pipelines. -/
def isWordChar (c : Char) : Bool :=
  c.isAlphanum || c = '_'

/-- Test whether the second list is a prefix of the first. -/
def startsWith : Chars → Chars → Bool
  | _, [] => true
  | [], _ :: _ => false
  | c :: s, p :: ps => c == p && startsWith s ps

/-- Test whether the pattern occurs as a contiguous sublist. -/
def containsSub : Chars → Chars → Bool
  | s, pat =>
    startsWith s pat ||
      (match s with
       | [] => false
       | _ :: t => containsSub t pat)

/-- Split a character list on every occurrence of a separator character,
keeping empty pieces, as Python's str.split with an explicit separator. -/
def splitOnChar (sep : Char) (s : Chars) : List Chars :=
  s.foldr
    (fun c acc =>
      match acc with
      | [] => [[c]]
      | a :: rest => if c == sep then [] :: a :: rest else (c :: a) :: rest)
    [[]]

/-- Join a list of character lists with a single space between pieces,
as Python's str.join with a one-space separator. -/
def joinSp (l : List Chars) : Chars :=
  List.intercalate [' '] l

/-- Lexicographic comparison of character lists by code point, the order
Python uses to compare strings (used by the sorting that pandas applies
to group keys and pivot axes). -/
def lexLe : Chars → Chars → Bool
  | [], _ => true
  | _ :: _, [] => false
  | a :: as, b :: bs => if a == b then lexLe as bs else decide (a < b)

/-- Insert into a sorted deduplicated list, keeping it sorted without
duplicates (ascending in the given order). -/
def insertSortedDedup (le : Chars → Chars → Bool) (x : Chars) :
    List Chars → List Chars
  | [] => [x]
  | y :: ys =>
    if x == y then y :: ys
    else if le x y then x :: y :: ys
    else y :: insertSortedDedup le x ys

/-- Sorted list of the distinct values occurring in the input (ascending),
as pandas produces for group keys and pivot-table axes. -/
def sortedDedup (le : Chars → Chars → Bool) (l : List Chars) : List Chars :=
  l.foldl (fun acc x => insertSortedDedup le x acc) []

/-- Insert an element after every element whose count is at least as
large; folding this from the left gives a stable descending sort by
count, which is the tie-breaking behaviour of Counter.most_common and
of the pandas value_counts used by the source. -/
def insertAfterGe {α : Type} (x : α × Nat) :
    List (α × Nat) → List (α × Nat)
  | [] => [x]
  | y :: ys => if x.2 ≤ y.2 then y :: insertAfterGe x ys else x :: y :: ys

/-- Stable sort, descending by count, ties kept in first-seen order. -/
def sortDescByCount {α : Type} (l : List (α × Nat)) : List (α × Nat) :=
  l.foldl (fun acc x => insertAfterGe x acc) []

/-- Count occurrences of each distinct element, in first-occurrence
order, as collections.Counter and the pandas value_counts hash table do. -/
def counterPairs (xs : List Chars) : List (Chars × Nat) :=
  xs.foldl
    (fun acc x => if acc.any (fun p => p.1 == x) then acc else acc ++ [(x, xs.count x)])
    []

/-- Counter.most_common over a list of tokens: distinct tokens with
counts, sorted descending by count, ties in first-seen order. -/
def mostCommon (xs : List Chars) : List (Chars × Nat) :=
  sortDescByCount (counterPairs xs)

/- ## Calendar model -/

/-- Timestamps produced by the date parser (seconds are always zero for
the formats the source accepts, so they are omitted). -/
structure Timestamp where
  year : Nat
  month : Nat
  day : Nat
  hour : Nat
  minute : Nat
deriving DecidableEq, Repr

/-- Gregorian leap-year test. -/
def isLeap (y : Nat) : Bool :=
  y % 4 == 0 && (y % 100 != 0 || y % 400 == 0)

/-- Days in a month of the Gregorian calendar. -/
def daysInMonth (y m : Nat) : Nat :=
  if m == 2 then (if isLeap y then 29 else 28)
  else if m == 4 || m == 6 || m == 9 || m == 11 then 30
  else 31

/-- Day of the week by Sakamoto's formula, 0 = Sunday .. 6 = Saturday. -/
def dayOfWeekSun0 (y m d : Nat) : Nat :=
  let t : List Nat := [0, 3, 2, 5, 0, 3, 5, 1, 4, 6, 2, 4]
  let y' := if m < 3 then y - 1 else y
  (y' + y' / 4 + y' / 400 + t.getD (m - 1) 0 + d - y' / 100) % 7

/-- English weekday name as produced by the pandas day_name accessor. -/
def dayNameOf (t : Timestamp) : Chars :=
  (([ "Sunday", "Monday", "Tuesday", "Wednesday", "Thursday", "Friday",
      "Saturday" ].getD (dayOfWeekSun0 t.year t.month t.day) "")).toList

/-- English month name as produced by the pandas month_name accessor. -/
def monthNameOf (m : Nat) : Chars :=
  (([ "January", "February", "March", "April", "May", "June", "July",
      "August", "September", "October", "November", "December"
    ].getD (m - 1) "")).toList

/-- Hour-bucket label computed by the preprocess loop of app.py
(lines 81-89): hour 23 maps to "23-00", hour 0 maps to "00" joined with
str(0 + 1), and every other hour h maps to str(h) ++ "-" ++ str(h+1). -/
def periodOfHour (hour : Nat) : Chars :=
  if hour == 23 then (Nat.repr hour ++ "-" ++ "00").toList
  else if hour == 0 then ("00" ++ "-" ++ Nat.repr (hour + 1)).toList
  else (Nat.repr hour ++ "-" ++ Nat.repr (hour + 1)).toList

/-- Message records of the preprocessed DataFrame.  The derived calendar
columns of the source (only_date, year, month, day_name, hour, minute,
period) are pure functions of the date column and are modelled by the
accessor functions above applied to the date field. -/
structure Record where
  date : Timestamp
  user : Chars
  message : Chars
deriving DecidableEq, Repr

/-- Hour bucket (the period column) of a record. -/
def periodOf (r : Record) : Chars := periodOfHour r.date.hour

/-- Weekday name (the day_name column) of a record. -/
def dayNm (r : Record) : Chars := dayNameOf r.date

/- ## Timestamp-separator regex of app.py line 23 -/

/-- Drop one expected literal character. -/
def dropLit (c : Char) : Chars → Option Chars
  | [] => none
  | x :: xs => if x == c then some xs else none

/-- Drop a maximal digit run whose length lies in the given bounds; in
the source pattern every bounded digit group is followed by a non-digit
token, for which greedy matching with backtracking is equivalent to
this maximal-run test. -/
def dropDigits (lo hi : Nat) (s : Chars) : Option Chars :=
  let ds := s.takeWhile Char.isDigit
  if lo ≤ ds.length ∧ ds.length ≤ hi then some (s.dropWhile Char.isDigit)
  else none

/-- Drop exactly two digits, the minute group of the pattern. -/
def dropTwoDigits : Chars → Option Chars
  | a :: b :: rest => if a.isDigit && b.isDigit then some rest else none
  | _ => none

/-- Drop one whitespace character. -/
def dropWs1 : Chars → Option Chars
  | [] => none
  | c :: rest => if isPySpace c then some rest else none

/-- Drop an AM or PM marker in the character classes of the pattern. -/
def dropAmPm : Chars → Option Chars
  | a :: b :: rest =>
    if (a == 'A' || a == 'P' || a == 'a' || a == 'p') &&
       (b == 'M' || b == 'm') then some rest
    else none
  | _ => none

/-- Match whitespace, dash, whitespace. -/
def matchDash (s : Chars) : Option Chars :=
  ((dropWs1 s).bind (dropLit '-')).bind dropWs1

/-- Match the pattern tail after the minutes: the optional AM/PM group
then whitespace, dash, whitespace, trying the backtracking alternatives
in the order the regex engine does (group with its optional leading
whitespace, group without it, no group). -/
def matchTail (s : Chars) : Option Chars :=
  match ((dropWs1 s).bind dropAmPm).bind matchDash with
  | some r => some r
  | none =>
    match (dropAmPm s).bind matchDash with
    | some r => some r
    | none => matchDash s

/-- Match the timestamp-separator pattern at the head of the input,
returning the rest after the match. -/
def matchTsAt (s : Chars) : Option Chars :=
  ((((((((((dropDigits 1 2 s).bind (dropLit '/')).bind
    (dropDigits 1 2)).bind (dropLit '/')).bind (dropDigits 2 4)).bind
    (dropLit ',')).bind dropWs1).bind (dropDigits 1 2)).bind
    (dropLit ':')).bind dropTwoDigits).bind matchTail

/-- Leftmost match of the timestamp pattern: the text before the match,
the matched text, and the rest after it. -/
def findTsMatch : Chars → Option (Chars × Chars × Chars)
  | [] => none
  | c :: t =>
    match matchTsAt (c :: t) with
    | some r => some ([], (c :: t).take ((c :: t).length - r.length), r)
    | none => (findTsMatch t).map (fun p => (c :: p.1, p.2.1, p.2.2))

/-- Fuelled scan implementing re.split and re.findall with the
timestamp pattern simultaneously: the pieces between matches (length
one more than the match count) and the matched substrings, in order. -/
def tsScanGo : Nat → Chars → List Chars × List Chars
  | 0, s => ([s], [])
  | f + 1, s =>
    match findTsMatch s with
    | none => ([s], [])
    | some (b, m, r) =>
      let p := tsScanGo f r
      (b :: p.1, m :: p.2)

/-- Split of the raw export on the timestamp pattern together with the
list of matched timestamp substrings (app.py lines 24-25). -/
def tsScan (s : Chars) : List Chars × List Chars := tsScanGo s.length s

/- ## Date parsing (app.py lines 31-52) -/

/-- Numeric value of a digit run. -/
def digitsToNat (ds : Chars) : Nat :=
  ds.foldl (fun n c => 10 * n + (c.toNat - 48)) 0

/-- Numeric field of a strptime format: a maximal digit run whose
length lies in the given bounds and whose value satisfies the guard.
This models the per-directive regexes of the CPython strptime table
(which pandas reuses), using that in the four source formats every
digit directive is followed by a non-digit token. -/
def fieldNum (lo hi : Nat) (ok : Nat → Bool) (s : Chars) :
    Option (Nat × Chars) :=
  let ds := s.takeWhile Char.isDigit
  if lo ≤ ds.length ∧ ds.length ≤ hi ∧ ok (digitsToNat ds) = true then
    some (digitsToNat ds, s.dropWhile Char.isDigit)
  else none

/-- AM/PM directive: a case-insensitive AM or PM; true means PM. -/
def fieldAmPm : Chars → Option (Bool × Chars)
  | a :: b :: rest =>
    if a.toLower == 'a' && b.toLower == 'm' then some (false, rest)
    else if a.toLower == 'p' && b.toLower == 'm' then some (true, rest)
    else none
  | _ => none

/-- One-or-more whitespace characters, the translation strptime applies
to every whitespace run in a format string.  Greedy maximal-run
consumption is equivalent because every token following a whitespace
run in the four source formats is a non-whitespace token or the end of
the string. -/
def dropWsPlus (s : Chars) : Option Chars :=
  match s with
  | [] => none
  | c :: rest =>
    if isPySpace c then some (rest.dropWhile isPySpace) else none

/-- Bounds of the pandas nanosecond timestamp range (Timestamp.min is
1677-09-21 00:12:43.1, Timestamp.max is 2262-04-11 23:47:16.8; with
seconds always zero a parse result is representable exactly when its
minute-resolution key lies between 1677-09-21 00:13 and
2262-04-11 23:47 inclusive).  An out-of-bounds result raises a
ValueError subclass that the source catches like any format failure. -/
def inPandasBounds (t : Timestamp) : Bool :=
  let v := (((t.year * 13 + t.month) * 32 + t.day) * 24 + t.hour) * 60 + t.minute
  let lo := (((1677 * 13 + 9) * 32 + 21) * 24 + 0) * 60 + 13
  let hi := (((2262 * 13 + 4) * 32 + 11) * 24 + 23) * 60 + 47
  decide (lo ≤ v) && decide (v ≤ hi)

/-- Parse a date string against one of the four strptime formats of
app.py lines 35-46: day, slash, month, slash, year (two- or four-digit
according to y4), comma, whitespace, hour (12-hour with a trailing
AM/PM marker when h12, else 24-hour), colon, minute, whitespace, dash,
whitespace, end of string.  The two-digit year maps 0-68 to 2000-2068
and 69-99 to 1969-1999 as strptime does; validation mirrors datetime
construction (calendar validity, year at least one) and the pandas
nanosecond bounds, whose violations raise the ValueError the source
catches. -/
def parseFmt (y4 : Bool) (h12 : Bool) (s : Chars) : Option Timestamp := do
  let (d, s) ← fieldNum 1 2 (fun v => decide (1 ≤ v) && decide (v ≤ 31)) s
  let s ← dropLit '/' s
  let (m, s) ← fieldNum 1 2 (fun v => decide (1 ≤ v) && decide (v ≤ 12)) s
  let s ← dropLit '/' s
  let (yv, s) ←
    if y4 then fieldNum 4 4 (fun v => decide (1 ≤ v)) s
    else fieldNum 2 2 (fun _ => true) s
  let s ← dropLit ',' s
  let s ← dropWsPlus s
  let (hv, s) ←
    if h12 then fieldNum 1 2 (fun v => decide (1 ≤ v) && decide (v ≤ 12)) s
    else fieldNum 1 2 (fun v => decide (v ≤ 23)) s
  let s ← dropLit ':' s
  let (mi, s) ← fieldNum 1 2 (fun v => decide (v ≤ 59)) s
  let (pm, s) ←
    if h12 then do
      let s ← dropWsPlus s
      fieldAmPm s
    else pure (false, s)
  let s ← dropWsPlus s
  let s ← dropLit '-' s
  let s ← dropWsPlus s
  if s ≠ [] then none
  else
    let y := if y4 then yv else (if yv ≤ 68 then 2000 + yv else 1900 + yv)
    let h :=
      if h12 then
        (if pm then (if hv == 12 then 12 else hv + 12)
         else (if hv == 12 then 0 else hv))
      else hv
    let t : Timestamp := ⟨y, m, d, h, mi⟩
    if d ≤ daysInMonth y m ∧ inPandasBounds t = true then some t else none

/-- Date-format fallback chain of app.py lines 31-52: two-digit-year
12-hour, then two-digit-year 24-hour, then four-digit-year 12-hour,
then four-digit-year 24-hour; the first success wins, and total failure
models the NaT row that dropna later removes. -/
def parseDateChain (s : Chars) : Option Timestamp :=
  match parseFmt false true s with
  | some t => some t
  | none =>
    match parseFmt false false s with
    | some t => some t
    | none =>
      match parseFmt true true s with
      | some t => some t
      | none => parseFmt true false s

/- ## Author split (app.py lines 57-66) -/

/-- Find the first position whose character is a colon followed by a
whitespace character; return the part before the colon and the part
after the whitespace character. -/
def findColonWs : Chars → Option (Chars × Chars)
  | [] => none
  | [_] => none
  | c :: d :: rest =>
    if c == ':' && isPySpace d then some ([], rest)
    else (findColonWs (d :: rest)).map (fun p => (c :: p.1, p.2))

/-- Leftmost match of the non-greedy author pattern of app.py line 60
on a chunk: the shortest non-empty prefix followed by a colon and a
whitespace character.  Returns the captured group and the rest after
the consumed colon and whitespace character. -/
def findBoundary : Chars → Option (Chars × Chars)
  | [] => none
  | c :: rest => (findColonWs rest).map (fun p => (c :: p.1, p.2))

/-- Fuelled result of Python re.split with the capturing author
pattern: for every match an empty between-piece and the capture, then
the unmatched tail as the final piece. -/
def pySplitGNGo : Nat → Chars → List Chars
  | 0, s => [s]
  | f + 1, s =>
    match findBoundary s with
    | none => [s]
    | some (cap, rest) => [] :: cap :: pySplitGNGo f rest

/-- Python re.split of a chunk with the author pattern. -/
def pySplitGN (s : Chars) : List Chars := pySplitGNGo s.length s

/-- Sentinel author used for system lines. -/
def gnUser : Chars := "group_notification".toList

/-- Author and message text extracted from one chunk (app.py lines
60-66): when the split produced a match, the first capture and the
single-space join of all later entries; otherwise the sentinel author
and the whole chunk. -/
def splitAuthorPy (msg : Chars) : Chars × Chars :=
  match pySplitGN msg with
  | [] => (gnUser, [])
  | e0 :: rest =>
    if rest.isEmpty then (gnUser, e0)
    else (rest.headD [], joinSp (rest.drop 1))

/- ## The preprocessor (app.py lines 21-91) -/

/-- Record built from a parsed date and a chunk. -/
def mkRecord (t : Timestamp) (chunk : Chars) : Record :=
  ⟨t, (splitAuthorPy chunk).1, (splitAuthorPy chunk).2⟩

/-- Preprocessor of app.py lines 21-91 on its non-raising path (inputs
with at least one timestamp match): split the raw text on the
timestamp pattern (discarding the piece before the first match), parse
each date string with the format fallback chain into an optional date
column, drop the rows whose date failed to parse (the dropna), then
split every remaining chunk into author and text.  The second component
collects the date strings reported by the st.error diagnostics, in
order.  On an input with no timestamp match the source instead raises
at line 72; that error path is modelled by preprocessE below. -/
def preprocess (data : Chars) : List Record × List Chars :=
  let pieces := tsScan data
  let messages := pieces.1.drop 1
  let dates := pieces.2
  let parsed := dates.map parseDateChain
  let rows := parsed.zip messages
  let kept := rows.filter (fun r => r.1.isSome)
  let records := kept.map (fun r => mkRecord (r.1.getD ⟨0, 0, 0, 0, 0⟩) r.2)
  let errors := dates.filter (fun d => (parseDateChain d).isNone)
  (records, errors)

/-- Preprocessor of app.py lines 21-91 including its error path.  When
re.findall finds no timestamp match, assigning the empty list to the
date column (line 54) leaves an empty column that is not datetimelike,
so the dt.date accessor on that column at line 72 raises an
AttributeError that escapes preprocess (the blanket except handler of
the caller in app.py then aborts the whole analysis); none models that
escaping exception.  When there is at least one match, parsed_dates is
a non-empty list of timestamps and NaT values, the column has
datetime64 dtype, every dt accessor succeeds, and the pipeline
completes as preprocess — in particular an input whose date strings
all fail to parse still returns normally (an all-NaT column is
datetimelike; dropna then empties the frame). -/
def preprocessE (data : Chars) : Option (List Record × List Chars) :=
  if (tsScan data).2 = [] then none else some (preprocess data)

/- ## Aggregator helpers (helper.py) -/

/-- Author filter shared by every aggregator in helper.py: when the
selected user differs from the sentinel string Overall, keep only that
author's rows, else keep the whole frame. -/
def filterUser (selectedUser : Chars) (df : List Record) : List Record :=
  if selectedUser ≠ "Overall".toList then
    df.filter (fun r => r.user == selectedUser)
  else df

/-- Python str.split with no arguments: the maximal runs of
non-whitespace characters, in order, with no empty pieces. -/
def pySplitWsGo : Nat → Chars → List Chars
  | 0, _ => []
  | f + 1, s =>
    match s with
    | [] => []
    | c :: t =>
      if isPySpace c then pySplitWsGo f t
      else
        (s.takeWhile (fun x => !isPySpace x)) ::
          pySplitWsGo f (t.dropWhile (fun x => !isPySpace x))

/-- Whitespace word split of a message. -/
def pySplitWs (s : Chars) : List Chars := pySplitWsGo s.length s

/-- Media predicate of helper.py lines 22, 51 and 94: pandas
str.contains with the literal pattern and case=False, i.e. a
case-insensitive substring test for the media-omitted marker. -/
def isMediaMsg (s : Chars) : Bool :=
  containsSub (s.map Char.toLower) "<media omitted>".toList

/-- Greedy run of one or more non-whitespace characters that ends every
alternative of the URL pattern of helper.py line 25; returns the rest
after the run. -/
def urlTailAt (r : Chars) : Option Chars :=
  if r.takeWhile (fun c => !isPySpace c) = [] then none
  else some (r.dropWhile (fun c => !isPySpace c))

/-- Leftmost-alternative match of the URL pattern at the head of the
input (the optional s is greedy and each prefix is followed by a
mandatory token, so prefix tests are equivalent to backtracking). -/
def matchUrlAt (s : Chars) : Option Chars :=
  if startsWith s "https://".toList then urlTailAt (s.drop 8)
  else if startsWith s "http://".toList then urlTailAt (s.drop 7)
  else if startsWith s "www.".toList then urlTailAt (s.drop 4)
  else none

/-- Count the non-overlapping leftmost matches of the URL pattern in a
message, the quantity re.findall contributes to the link count. -/
def countUrlGo : Nat → Chars → Nat
  | 0, _ => 0
  | f + 1, s =>
    match s with
    | [] => 0
    | _ :: t =>
      match matchUrlAt s with
      | some r => 1 + countUrlGo f r
      | none => countUrlGo f t

/-- Number of URL-pattern matches in one message. -/
def countUrl (s : Chars) : Nat := countUrlGo s.length s

/-- Replace every URL-pattern match by the empty string, as the re.sub
of helper.py lines 54 and 97. -/
def stripUrlGo : Nat → Chars → Chars
  | 0, s => s
  | f + 1, s =>
    match s with
    | [] => []
    | c :: t =>
      match matchUrlAt s with
      | some r => stripUrlGo f r
      | none => c :: stripUrlGo f t

/-- Message with all URL-pattern matches removed. -/
def stripUrl (s : Chars) : Chars := stripUrlGo s.length s

/- ## fetch_stats (helper.py lines 8-30) -/

/-- Statistics of helper.py fetch_stats: after the author filter, the
row count, the total count of whitespace-split words over all message
texts, the count of rows whose message contains the media marker
case-insensitively, and the total count of URL-pattern matches over
all message texts. -/
def fetch_stats (selectedUser : Chars) (df : List Record) :
    Nat × Nat × Nat × Nat :=
  let df := filterUser selectedUser df
  let numMessages := df.length
  let numWords := (df.map (fun r => (pySplitWs r.message).length)).sum
  let numMedia := (df.filter (fun r => isMediaMsg r.message)).length
  let numLinks := (df.map (fun r => countUrl r.message)).sum
  (numMessages, numWords, numMedia, numLinks)

/- ## most_busy_users (helper.py lines 32-41) -/

/-- Round a rational to two decimal places with ties to even, the
rounding the source's round call applies to the percentage column
(modelled exactly over the rationals). -/
def round2 (q : ℚ) : ℚ :=
  let f : ℚ := q * 100
  let fl : ℤ := ⌊f⌋
  let r : ℚ := f - fl
  let n : ℤ :=
    if r < 1 / 2 then fl
    else if 1 / 2 < r then fl + 1
    else if fl % 2 = 0 then fl else fl + 1
  (n : ℚ) / 100

/-- helper.py most_busy_users: the top five users by message count
(value_counts order: descending count, first-seen ties) and the full
per-user table with each user's percentage of all messages, rounded to
two decimals.  On an empty frame both results are empty and the
division by the zero row count touches no element, modelling that
pandas raises nothing there. -/
def most_busy_users (df : List Record) :
    List (Chars × Nat) × List (Chars × ℚ) :=
  let counts := sortDescByCount (counterPairs (df.map (fun r => r.user)))
  let x := counts.take 5
  let dfPercent := counts.map
    (fun p => (p.1, round2 ((p.2 : ℚ) / (df.length : ℚ) * 100)))
  (x, dfPercent)

/- ## Word pipelines (helper.py lines 43-116) -/

/-- Rows used by the word pipelines: drop the sentinel-author rows and
the rows whose message contains the media marker case-insensitively
(helper.py lines 50-51 and 93-94). -/
def wordRows (df : List Record) : List Record :=
  (df.filter (fun r => r.user ≠ gnUser)).filter
    (fun r => !isMediaMsg r.message)

/-- Cleaning inside remove_stop_words and the most_common_words loop:
lowercase, then delete every character that is neither a word character
nor whitespace (helper.py lines 62 and 106). -/
def cleanMsg (s : Chars) : Chars :=
  (s.map Char.toLower).filter (fun c => isWordChar c || isPySpace c)

/-- Stop-word list obtained from the file contents: the newline split
of the whole text (helper.py lines 59 and 101).  The contents are an
explicit parameter; none models an unreadable file. -/
def stopList (contents : Chars) : List Chars :=
  splitOnChar '\n' contents

/-- remove_stop_words of helper.py lines 56-68: with readable contents,
clean the message and keep the words not in the stop list, joined by
single spaces; when reading raises, return the message unchanged. -/
def remove_stop_words (stopFile : Option Chars) (message : Chars) : Chars :=
  match stopFile with
  | none => message
  | some contents =>
    joinSp ((pySplitWs (cleanMsg message)).filter
      (fun w => !(stopList contents).contains w))

/-- create_wordcloud of helper.py lines 43-84, modelled at the level of
the text handed to the word-cloud renderer (the argument of the
generate call; rendering itself is outside the model): filter by
author, keep the word rows, strip URLs, apply remove_stop_words, join
all messages with single spaces, and substitute the placeholder when
the result is all whitespace. -/
def create_wordcloud (stopFile : Option Chars) (selectedUser : Chars)
    (df : List Record) : Chars :=
  let df := filterUser selectedUser df
  let temp := wordRows df
  let msgs := temp.map (fun r => stripUrl r.message)
  let msgs := msgs.map (remove_stop_words stopFile)
  let allWords := joinSp msgs
  if allWords.any (fun c => !isPySpace c) then allWords
  else "No meaningful words found".toList

/-- most_common_words of helper.py lines 86-116: filter by author, keep
the word rows, strip URLs, read the stop-word list, collect the cleaned
words that are not stop words and are longer than one character, and
return the twenty most common with counts.  When reading the stop-word
file raises, the enclosing try/except returns the empty table. -/
def most_common_words (stopFile : Option Chars) (selectedUser : Chars)
    (df : List Record) : List (Chars × Nat) :=
  match stopFile with
  | none => []
  | some contents =>
    let df := filterUser selectedUser df
    let temp := wordRows df
    let msgs := temp.map (fun r => stripUrl r.message)
    let words := msgs.flatMap (fun m =>
      (pySplitWs (cleanMsg m)).filter
        (fun w => !(stopList contents).contains w && decide (1 < w.length)))
    (mostCommon words).take 20

/- ## emoji_helper (helper.py lines 118-135) -/

/-- emoji_helper, with the emoji code-point table passed as an explicit
membership predicate: every character of every filtered message that
the table classifies as an emoji, counted and sorted descending with
first-seen ties (most_common over all distinct emojis). -/
def emoji_helper (isEmoji : Char → Bool) (selectedUser : Chars)
    (df : List Record) : List (Chars × Nat) :=
  let df := filterUser selectedUser df
  let emojis := df.flatMap (fun r => (r.message.filter isEmoji).map (fun c => [c]))
  mostCommon emojis

/- ## Timelines and activity maps (helper.py lines 137-211) -/

/-- Ascending insertion for year-month keys. -/
def insertYmDedup (x : Nat × Nat) : List (Nat × Nat) → List (Nat × Nat)
  | [] => [x]
  | y :: ys =>
    if x = y then y :: ys
    else if x.1 < y.1 ∨ (x.1 = y.1 ∧ x.2 < y.2) then x :: y :: ys
    else y :: insertYmDedup x ys

/-- Ascending insertion for date keys. -/
def insertYmdDedup (x : Nat × Nat × Nat) :
    List (Nat × Nat × Nat) → List (Nat × Nat × Nat)
  | [] => [x]
  | y :: ys =>
    if x = y then y :: ys
    else if x.1 < y.1 ∨ (x.1 = y.1 ∧ (x.2.1 < y.2.1 ∨
        (x.2.1 = y.2.1 ∧ x.2.2 < y.2.2))) then x :: y :: ys
    else y :: insertYmdDedup x ys

/-- monthly_timeline of helper.py lines 137-155: group by year and
month number (ascending), count messages, and label each group with the
month name, a dash and the year. -/
def monthly_timeline (selectedUser : Chars) (df : List Record) :
    List ((Nat × Nat) × Chars × Nat) :=
  let df := filterUser selectedUser df
  let keys := (df.map (fun r => (r.date.year, r.date.month))).foldl
    (fun acc k => insertYmDedup k acc) []
  keys.map (fun k =>
    (k, monthNameOf k.2 ++ ('-' :: (Nat.repr k.1).toList),
     (df.filter (fun r => r.date.year = k.1 ∧ r.date.month = k.2)).length))

/-- daily_timeline of helper.py lines 157-168: group by calendar date
ascending and count messages. -/
def daily_timeline (selectedUser : Chars) (df : List Record) :
    List ((Nat × Nat × Nat) × Nat) :=
  let df := filterUser selectedUser df
  let keys := (df.map (fun r => (r.date.year, r.date.month, r.date.day))).foldl
    (fun acc k => insertYmdDedup k acc) []
  keys.map (fun k =>
    (k, (df.filter (fun r =>
      r.date.year = k.1 ∧ r.date.month = k.2.1 ∧ r.date.day = k.2.2)).length))

/-- Canonical weekday order used by the reindex calls of helper.py. -/
def dayOrder : List Chars :=
  [ "Monday".toList, "Tuesday".toList, "Wednesday".toList,
    "Thursday".toList, "Friday".toList, "Saturday".toList,
    "Sunday".toList ]

/-- Canonical month order used by month_activity_map. -/
def monthOrder : List Chars :=
  [ "January".toList, "February".toList, "March".toList, "April".toList,
    "May".toList, "June".toList, "July".toList, "August".toList,
    "September".toList, "October".toList, "November".toList,
    "December".toList ]

/-- week_activity_map of helper.py lines 170-179: value_counts of the
weekday names reindexed onto the canonical Monday-first order; a
weekday absent from the data reindexes to a missing value (none). -/
def week_activity_map (selectedUser : Chars) (df : List Record) :
    List (Chars × Option Nat) :=
  let df := filterUser selectedUser df
  let counts := counterPairs (df.map dayNm)
  dayOrder.map (fun d => (d, (counts.find? (fun p => p.1 == d)).map Prod.snd))

/-- month_activity_map of helper.py lines 181-191: value_counts of the
month names reindexed onto the canonical January-first order. -/
def month_activity_map (selectedUser : Chars) (df : List Record) :
    List (Chars × Option Nat) :=
  let df := filterUser selectedUser df
  let counts := counterPairs (df.map (fun r => monthNameOf r.date.month))
  monthOrder.map (fun d => (d, (counts.find? (fun p => p.1 == d)).map Prod.snd))

/- ## activity_heatmap (helper.py lines 193-211) -/

/-- Hour-bucket columns of the pivot table: the distinct period values
of the filtered frame, sorted ascending as pandas sorts pivot columns. -/
def heatCols (df : List Record) : List Chars :=
  sortedDedup lexLe (df.map periodOf)

/-- Rows of the raw pivot table: one row per weekday that occurs in the
frame (sorted; the later reindex fixes the final order), one cell per
column holding the count of matching rows, missing when no row matches
(the NaN of an absent day-and-period combination). -/
def pivotRows (df : List Record) : List (Chars × List (Option Nat)) :=
  (sortedDedup lexLe (df.map dayNm)).map (fun d =>
    (d, (heatCols df).map (fun p =>
      let c := (df.filter (fun r => dayNm r == d && periodOf r == p)).length
      if c = 0 then none else some c)))

/-- activity_heatmap of helper.py lines 193-211: the pivot table of
weekday against hour bucket with count aggregation, fillna(0) applied
to its cells, then reindexed onto the canonical Monday-first weekday
order; a weekday with no rows at all yields a row of missing cells
because the reindex runs after the fillna. -/
def activity_heatmap (selectedUser : Chars) (df : List Record) :
    List (Chars × List (Option Nat)) :=
  let df := filterUser selectedUser df
  let filled := (pivotRows df).map
    (fun row => (row.1, row.2.map (fun c => some (c.getD 0))))
  dayOrder.map (fun d =>
    match filled.find? (fun row => row.1 == d) with
    | some row => (d, row.2)
    | none => (d, (heatCols df).map (fun _ => (none : Option Nat))))

/- ## Concrete inputs used by the claims -/

/-- Three-line example input of the specification. -/
def c1Input : Chars :=
  ("12/08/23, 10:15 - Alice: Hello!\n" ++
   "12/08/23, 10:16 - Bob: <Media omitted>\n" ++
   "12/08/23, 10:17 - Alice: check www.x.com").toList

/-- The string Overall as a character list. -/
def ovl : Chars := "Overall".toList

/- # Claim C1 -/

/-- Claim C1, counterexample: on the three-line example the parser
produces exactly three records, but fetch_stats with the Overall filter
returns a word count of five, not four (the three message texts split
into one, two and two whitespace words), so the claimed result tuple
(messages=3, words=4, media=1, links=1) is wrong in its word
component. -/
theorem c1_stats_counterexample :
    (preprocess c1Input).1.length = 3 ∧
    fetch_stats ovl (preprocess c1Input).1 ≠ (3, 4, 1, 1) := by
  decide

/-- Claim C1 as amended: on the three-line example the parser produces
exactly three records and fetch_stats with the Overall filter returns
messages=3, words=5, media=1, links=1. -/
theorem c1_stats_amended :
    (preprocess c1Input).1.length = 3 ∧
    fetch_stats ovl (preprocess c1Input).1 = (3, 5, 1, 1) := by
  decide

/- # Claim C4 -/

/-- Claim C4, counterexample: the hour bucket of hour zero is the
string 00-1 (the source appends str(0 + 1), which has no zero padding),
not the claimed 00-01. -/
theorem c4_period_counterexample :
    periodOfHour 0 = "00-1".toList ∧ periodOfHour 0 ≠ "00-01".toList := by
  decide

/-- Claim C4 as amended: every record's hour bucket is the period of
its hour; the bucket is 23-00 at hour 23, 00-1 (not 00-01) at hour 0,
and the unpadded decimal h-(h+1) label at every other hour. -/
theorem c4_period_amended (h : Nat) (r : Record) :
    periodOf r = periodOfHour r.date.hour ∧
    periodOfHour 23 = "23-00".toList ∧
    periodOfHour 0 = "00-1".toList ∧
    (h ≠ 0 → h ≠ 23 →
      periodOfHour h = (Nat.repr h ++ "-" ++ Nat.repr (h + 1)).toList) := by
  refine ⟨rfl, by decide, by decide, fun h0 h23 => ?_⟩
  simp only [periodOfHour, beq_iff_eq, h0, h23, if_false]

/-- Witness for the amended claim C4 at hour 14. -/
theorem c4_period_witness :
    periodOfHour 14 = (Nat.repr 14 ++ "-" ++ Nat.repr (14 + 1)).toList := by
  exact (c4_period_amended 14 ⟨⟨0, 0, 0, 0, 0⟩, [], []⟩).2.2.2
    (by decide) (by decide)

/- # Claim C10 -/

/-- Frame with a participant literally named Overall, used to show the
author filter can never isolate such a participant. -/
def dfOverallUser : List Record :=
  [ ⟨⟨2023, 8, 14, 10, 0⟩, "Overall".toList, "mine".toList⟩,
    ⟨⟨2023, 8, 14, 11, 0⟩, "Bob".toList, "his".toList⟩ ]

/-- Claim C10: the shared author filter compares the selected user with
the sentinel string Overall by exact equality, so the value Overall
always selects the whole frame; on a frame containing a participant
literally named Overall who wrote one of two messages, fetch_stats with
that name still counts both messages, never just that author's one. -/
theorem c10_overall_sentinel :
    (∀ df : List Record, filterUser ovl df = df) ∧
    (∀ df : List Record, (fetch_stats ovl df).1 = df.length) ∧
    (fetch_stats ovl dfOverallUser).1 = 2 ∧
    (dfOverallUser.filter (fun r => r.user == ovl)).length = 1 := by
  refine ⟨fun df => by simp [filterUser, ovl], fun df => ?_, by decide, by decide⟩
  simp [fetch_stats, filterUser, ovl]

/- # Claim C5 -/

/-- Prefix test as an existential decomposition. -/
theorem startsWith_iff_exists (s p : Chars) :
    startsWith s p = true ↔ ∃ t, s = p ++ t := by
  induction p generalizing s with
  | nil => simp [startsWith]
  | cons c cs ih =>
    cases s with
    | nil => simp [startsWith]
    | cons a as =>
      simp only [startsWith, Bool.and_eq_true, beq_iff_eq, ih,
        List.cons_append, List.cons.injEq]
      constructor
      · rintro ⟨rfl, t, rfl⟩; exact ⟨t, rfl, rfl⟩
      · rintro ⟨t, rfl, rfl⟩; exact ⟨rfl, t, rfl⟩

/-- Substring test as an existential decomposition. -/
theorem containsSub_iff_exists (s p : Chars) :
    containsSub s p = true ↔ ∃ x y, s = x ++ p ++ y := by
  induction s with
  | nil =>
    rw [containsSub]
    cases p with
    | nil => simp [startsWith]
    | cons c cs =>
      simp only [startsWith, Bool.false_or]
      constructor
      · intro h; cases h
      · rintro ⟨x, y, hxy⟩
        exact absurd hxy (by simp)
  | cons a as ih =>
    rw [containsSub]
    simp only [Bool.or_eq_true, startsWith_iff_exists, ih]
    constructor
    · rintro (⟨t, ht⟩ | ⟨x, y, hxy⟩)
      · exact ⟨[], t, by simpa using ht⟩
      · exact ⟨a :: x, y, by simp [hxy]⟩
    · rintro ⟨x, y, hxy⟩
      cases x with
      | nil => exact Or.inl ⟨y, by simpa using hxy⟩
      | cons b bs =>
        simp only [List.cons_append, List.cons.injEq] at hxy
        exact Or.inr ⟨bs, y, hxy.2⟩

/-- Record whose message merely contains the media marker as a proper
substring, in mixed case. -/
def recProperSub : Record :=
  ⟨⟨2023, 8, 14, 10, 0⟩, "Alice".toList, "abc <media OMITTED> def".toList⟩

/-- Claim C5, counterexample: a message that contains the media marker
only as a proper substring (here in mixed case) is nevertheless counted
as a media message by fetch_stats, and is excluded by the word
frequency pipeline, contradicting the claimed equality test. -/
theorem c5_media_counterexample :
    recProperSub.message ≠ "<Media omitted>".toList ∧
    (fetch_stats ovl [recProperSub]).2.2.1 = 1 ∧
    most_common_words (some []) ovl [recProperSub] = [] := by
  decide

/-- Claim C5 as amended: fetch_stats counts as media exactly the
filtered rows whose message contains the media marker
case-insensitively — containment, not equality, so proper superstrings
are media messages too — and the word pipelines keep exactly the
non-notification rows whose message does not contain the marker. -/
theorem c5_media_amended (u : Chars) (df : List Record) (s : Chars) :
    (fetch_stats u df).2.2.1 =
      ((filterUser u df).filter (fun r => isMediaMsg r.message)).length ∧
    (isMediaMsg s = true ↔
      ∃ x y, s.map Char.toLower = x ++ "<media omitted>".toList ++ y) ∧
    wordRows df = df.filter
      (fun r => r.user ≠ gnUser ∧ isMediaMsg r.message = false) := by
  refine ⟨rfl, containsSub_iff_exists _ _, ?_⟩
  simp only [wordRows, List.filter_filter]
  apply List.filter_congr
  intro r _
  by_cases hm : isMediaMsg r.message = true <;>
    by_cases hu : r.user = gnUser <;> simp [hm, hu]

/- # Claim C7 -/

/-- Frame with repeated ordinary words, used to show the stop-word
fallback behaviour. -/
def dfWords : List Record :=
  [ ⟨⟨2023, 8, 14, 10, 0⟩, "Alice".toList, "hello world hello".toList⟩ ]

/-- Claim C7, counterexample: when the stop-word list cannot be read,
most_common_words returns the empty table even though the same frame
yields frequency results when the list is readable, so the
word-frequency path returns nothing instead of falling back to
processing without stop-word removal. -/
theorem c7_stopwords_counterexample :
    most_common_words none ovl dfWords = [] ∧
    most_common_words (some []) ovl dfWords =
      [("hello".toList, 2), ("world".toList, 1)] := by
  decide

/-- Cloud input with no stop-word removal: author filter, notification
and media filtering, URL stripping, single-space join, placeholder when
blank.  Stated from the amended claim's words for comparison with
create_wordcloud when the stop-word list is unreadable. -/
def cloudInputNoStop (selectedUser : Chars) (df : List Record) : Chars :=
  let temp := wordRows (filterUser selectedUser df)
  let allWords := joinSp (temp.map (fun r => stripUrl r.message))
  if allWords.any (fun c => !isPySpace c) then allWords
  else "No meaningful words found".toList

/-- Claim C7 as amended: neither function raises (both are total), but
their fallbacks differ: create_wordcloud with an unreadable stop-word
list produces the cloud input with no stop-word removal at all (also
skipping the lowercasing and punctuation stripping that live in the
same guarded block), while most_common_words returns its empty table
instead of frequency results. -/
theorem remove_stop_words_none (m : Chars) : remove_stop_words none m = m :=
  rfl

theorem c7_stopwords_amended (u : Chars) (df : List Record) :
    most_common_words none u df = [] ∧
    create_wordcloud none u df = cloudInputNoStop u df := by
  refine ⟨rfl, ?_⟩
  have h : remove_stop_words none = id := funext remove_stop_words_none
  simp [create_wordcloud, cloudInputNoStop, h]

/- # Claim C6 -/

/-- Author filter of the empty frame. -/
theorem filterUser_nil (u : Chars) : filterUser u [] = [] := by
  unfold filterUser
  split <;> rfl

/-- Placeholder string of the word cloud. -/
def cloudPlaceholder : Chars := "No meaningful words found".toList

/-- Single record on a Monday, used as a witness frame. -/
def recMonday : Record := ⟨⟨2023, 8, 14, 10, 0⟩, "Alice".toList, "hi".toList⟩

/-- Claim C6, counterexample: on the empty (zero-byte) input the
source does not return an empty record sequence — with no timestamp
match the date column is an empty non-datetimelike column and the
dt.date accessor at app.py line 72 raises, modelled by none — so the
parse raises instead of yielding the empty frame. -/
theorem c6_empty_counterexample :
    preprocessE [] = none ∧
    preprocessE [] ≠ some ([], []) := by
  decide

/-- Claim C6 as amended: on the empty input — indeed on any input with
no timestamp match at all — the parse raises (an AttributeError from
the dt.date accessor on the empty non-datetimelike date column,
escaping to the blanket except handler of the app) instead of
returning an empty record sequence; on any input with at least one
match the pipeline completes normally; and on the empty frame — or on
any frame whose author filter selects nothing — every aggregator
returns its empty-result form (empty statistics, empty tables, the
placeholder cloud input, the all-missing reindexed maps and the
empty-column heatmap) without raising. -/
theorem c6_empty_amended (u : Chars) (stopFile : Option Chars)
    (isEmoji : Char → Bool) (df : List Record) (data : Chars) :
    preprocessE [] = none ∧
    (preprocessE data = none ↔ (tsScan data).2 = []) ∧
    ((tsScan data).2 ≠ [] → preprocessE data = some (preprocess data)) ∧
    (fetch_stats u [] = (0, 0, 0, 0) ∧
     most_busy_users [] = ([], []) ∧
     most_common_words stopFile u [] = [] ∧
     create_wordcloud stopFile u [] = cloudPlaceholder ∧
     emoji_helper isEmoji u [] = [] ∧
     monthly_timeline u [] = [] ∧
     daily_timeline u [] = [] ∧
     week_activity_map u [] = dayOrder.map (fun d => (d, none)) ∧
     month_activity_map u [] = monthOrder.map (fun d => (d, none)) ∧
     activity_heatmap u [] = dayOrder.map (fun d => (d, []))) ∧
    (filterUser u df = [] →
      fetch_stats u df = (0, 0, 0, 0) ∧
      most_common_words stopFile u df = [] ∧
      create_wordcloud stopFile u df = cloudPlaceholder ∧
      emoji_helper isEmoji u df = [] ∧
      monthly_timeline u df = [] ∧
      daily_timeline u df = [] ∧
      week_activity_map u df = dayOrder.map (fun d => (d, none)) ∧
      month_activity_map u df = monthOrder.map (fun d => (d, none)) ∧
      activity_heatmap u df = dayOrder.map (fun d => (d, []))) := by
  refine ⟨by decide, ?_, ?_, ?_, ?_⟩
  · unfold preprocessE
    constructor
    · intro h
      by_cases hc : (tsScan data).2 = []
      · exact hc
      · rw [if_neg hc] at h
        cases h
    · intro h
      rw [if_pos h]
  · intro h
    unfold preprocessE
    rw [if_neg h]
  · refine ⟨?_, by decide, ?_, ?_, ?_, ?_, ?_, ?_, ?_, ?_⟩
    · simp [fetch_stats, filterUser_nil]
    · cases stopFile <;>
        simp [most_common_words, filterUser_nil, wordRows, mostCommon,
          counterPairs, sortDescByCount]
    · cases stopFile <;>
        simp [create_wordcloud, filterUser_nil, wordRows, joinSp,
          cloudPlaceholder, List.intercalate]
    · simp [emoji_helper, filterUser_nil, mostCommon, counterPairs,
        sortDescByCount]
    · simp [monthly_timeline, filterUser_nil]
    · simp [daily_timeline, filterUser_nil]
    · simp [week_activity_map, filterUser_nil, counterPairs, List.find?]
    · simp [month_activity_map, filterUser_nil, counterPairs, List.find?]
    · simp [activity_heatmap, filterUser_nil, pivotRows, heatCols,
        sortedDedup, List.find?]
  · intro h
    refine ⟨?_, ?_, ?_, ?_, ?_, ?_, ?_, ?_, ?_⟩
    · simp [fetch_stats, h]
    · cases stopFile <;>
        simp [most_common_words, h, wordRows, mostCommon, counterPairs,
          sortDescByCount]
    · cases stopFile <;>
        simp [create_wordcloud, h, wordRows, joinSp, cloudPlaceholder,
          List.intercalate]
    · simp [emoji_helper, h, mostCommon, counterPairs, sortDescByCount]
    · simp [monthly_timeline, h]
    · simp [daily_timeline, h]
    · simp [week_activity_map, h, counterPairs, List.find?]
    · simp [month_activity_map, h, counterPairs, List.find?]
    · simp [activity_heatmap, h, pivotRows, heatCols, sortedDedup,
        List.find?]

/-- Witness for the amended claim C6: the three-line example input has
timestamp matches, so the parse completes without raising; and the
author Bob has no records in the Monday frame, so the filtered
aggregators return their empty forms. -/
theorem c6_empty_amended_witness :
    preprocessE c1Input = some (preprocess c1Input) ∧
    fetch_stats "Bob".toList [recMonday] = (0, 0, 0, 0) :=
  let h := c6_empty_amended "Bob".toList none (fun _ => false)
    [recMonday] c1Input
  ⟨h.2.2.1 (by decide), (h.2.2.2.2 (by decide)).1⟩

/- # Claim C3 -/

/-- Mapping an optional parse over a column, zipping, dropping the rows
where it failed and projecting the parsed value equals a filterMap over
the zipped rows: the shape of the parsed-dates, dropna and
record-construction steps of the preprocessor. -/
theorem filter_isSome_zip_map {α β γ T : Type} (f : α → Option T)
    (g : T → β → γ) (d0 : T) (l : List α) (m : List β) :
    ((((l.map f).zip m).filter (fun r => r.1.isSome)).map
      (fun r => g (r.1.getD d0) r.2)) =
    (l.zip m).filterMap (fun p => (f p.1).map (fun t => g t p.2)) := by
  induction l generalizing m with
  | nil => simp
  | cons a as ih =>
    cases m with
    | nil => simp
    | cons b bs =>
      cases hfa : f a <;> simp [hfa, ih]

/-- Claim C3: the timestamp parser tries the four candidate formats in
the order two-digit-year 12-hour, two-digit-year 24-hour,
four-digit-year 12-hour, four-digit-year 24-hour, keeping the first
success; a chunk whose date string fails all four formats is dropped
from the record output (never kept with a null date), and its date
string is surfaced in the diagnostics list, in order. -/
theorem c3_date_chain (s data : Chars) :
    (∀ t, parseFmt false true s = some t → parseDateChain s = some t) ∧
    (parseFmt false true s = none →
      ∀ t, parseFmt false false s = some t → parseDateChain s = some t) ∧
    (parseFmt false true s = none → parseFmt false false s = none →
      ∀ t, parseFmt true true s = some t → parseDateChain s = some t) ∧
    (parseFmt false true s = none → parseFmt false false s = none →
      parseFmt true true s = none → parseDateChain s = parseFmt true false s) ∧
    (preprocess data).1 =
      ((tsScan data).2.zip ((tsScan data).1.drop 1)).filterMap
        (fun p => (parseDateChain p.1).map (fun t => mkRecord t p.2)) ∧
    (preprocess data).2 =
      (tsScan data).2.filter (fun d => (parseDateChain d).isNone) := by
  refine ⟨?_, ?_, ?_, ?_, ?_, rfl⟩
  · intro t h; simp [parseDateChain, h]
  · intro h1 t h; simp [parseDateChain, h1, h]
  · intro h1 h2 t h; simp [parseDateChain, h1, h2, h]
  · intro h1 h2 h3; simp [parseDateChain, h1, h2, h3]
  · exact filter_isSome_zip_map parseDateChain mkRecord ⟨0, 0, 0, 0, 0⟩ _ _

/-- Witness for claim C3: the 12-hour format rejects the date string of
the example (no AM/PM marker), and the chain returns the 24-hour
two-digit-year parse. -/
theorem c3_date_chain_witness :
    parseDateChain "12/08/23, 10:16 - ".toList =
      some ⟨2023, 8, 12, 10, 16⟩ :=
  (c3_date_chain "12/08/23, 10:16 - ".toList []).2.1 (by decide) _ (by decide)

/- # Claim C2 -/

/-- Boundary of the author pattern at index j of a chunk: a colon there
followed by a whitespace character. -/
def colonWsAt (c : Chars) (j : Nat) : Prop :=
  c.get? j = some ':' ∧ (c.get? (j + 1)).any isPySpace = true

/-- Shifting a boundary index under a cons. -/
theorem colonWsAt_cons (a : Char) (l : Chars) (j : Nat) :
    colonWsAt (a :: l) (j + 1) ↔ colonWsAt l j := by
  simp [colonWsAt]

/-- findColonWs finds nothing exactly when no index carries a
colon-whitespace boundary. -/
theorem findColonWs_none_iff (c : Chars) :
    findColonWs c = none ↔ ∀ j, ¬ colonWsAt c j := by
  induction c with
  | nil =>
    simp only [findColonWs, true_iff]
    intro j h
    simp [colonWsAt] at h
  | cons a tail ih =>
    cases tail with
    | nil =>
      simp only [findColonWs, true_iff]
      intro j h
      rcases h with ⟨h1, h2⟩
      cases j with
      | zero => simp at h2
      | succ k => simp at h1
    | cons d rest =>
      rw [findColonWs]
      by_cases hb : (a == ':' && isPySpace d) = true
      · rw [if_pos hb]
        rw [Bool.and_eq_true, beq_iff_eq] at hb
        constructor
        · intro h; cases h
        · intro h
          refine absurd ?_ (h 0)
          exact ⟨by rw [hb.1]; rfl, by simpa using hb.2⟩
      · rw [if_neg hb, Option.map_eq_none', ih]
        constructor
        · intro h j
          cases j with
          | zero =>
            intro hj
            rcases hj with ⟨h1, h2⟩
            simp only [List.get?_cons_zero, Option.some.injEq] at h1
            simp only [List.get?_cons_succ, List.get?_cons_zero,
              Option.any_some] at h2
            exact hb (by rw [h1, h2]; simp)
          | succ k => rw [colonWsAt_cons]; exact h k
        · intro h k
          rw [← colonWsAt_cons a]
          exact h (k + 1)

/-- Decomposition and minimality of a findColonWs match: the input is
the prefix, a colon, one whitespace character and the rest, and no
earlier index carries a boundary. -/
theorem findColonWs_some (c pre post : Chars)
    (h : findColonWs c = some (pre, post)) :
    ∃ w, c = pre ++ ':' :: w :: post ∧ isPySpace w = true ∧
      ∀ j, j < pre.length → ¬ colonWsAt c j := by
  induction c generalizing pre post with
  | nil => simp [findColonWs] at h
  | cons a tail ih =>
    cases tail with
    | nil => simp [findColonWs] at h
    | cons d rest =>
      rw [findColonWs] at h
      by_cases hb : (a == ':' && isPySpace d) = true
      · rw [if_pos hb] at h
        rw [Bool.and_eq_true, beq_iff_eq] at hb
        simp only [Option.some.injEq, Prod.mk.injEq] at h
        rcases h with ⟨h1, h2⟩
        refine ⟨d, ?_, hb.2, ?_⟩
        · rw [← h1, ← h2, hb.1]; rfl
        · intro j hj
          rw [← h1] at hj
          simp at hj
      · rw [if_neg hb, Option.map_eq_some'] at h
        rcases h with ⟨⟨p1, p2⟩, hp, heq⟩
        rcases ih p1 p2 hp with ⟨w, hw1, hw2, hw3⟩
        simp only [Prod.mk.injEq] at heq
        refine ⟨w, ?_, hw2, ?_⟩
        · rw [← heq.1, ← heq.2, hw1]; rfl
        · intro j hj
          cases j with
          | zero =>
            intro hcw
            rcases hcw with ⟨h1, h2⟩
            simp only [List.get?_cons_zero, Option.some.injEq] at h1
            simp only [List.get?_cons_succ, List.get?_cons_zero,
              Option.any_some] at h2
            exact hb (by rw [h1, h2]; simp)
          | succ k =>
            rw [colonWsAt_cons]
            apply hw3
            rw [← heq.1] at hj
            simpa using Nat.lt_of_succ_lt_succ hj

/-- findBoundary finds nothing exactly when no index of at least one
carries a colon-whitespace boundary. -/
theorem findBoundary_none_iff (c : Chars) :
    findBoundary c = none ↔ ∀ j, ¬ colonWsAt c (j + 1) := by
  cases c with
  | nil =>
    simp only [findBoundary, true_iff]
    intro j h
    simp [colonWsAt] at h
  | cons a tail =>
    rw [findBoundary, Option.map_eq_none', findColonWs_none_iff]
    constructor
    · intro h j; rw [colonWsAt_cons]; exact h j
    · intro h j; rw [← colonWsAt_cons a]; exact h j

/-- Decomposition and minimality of a findBoundary match: the chunk is
the non-empty captured author, a colon, one whitespace character and
the rest, and no earlier index of at least one carries a boundary. -/
theorem findBoundary_some (c cap rest : Chars)
    (h : findBoundary c = some (cap, rest)) :
    ∃ w, c = cap ++ ':' :: w :: rest ∧ isPySpace w = true ∧ cap ≠ [] ∧
      ∀ j, 1 ≤ j → j < cap.length → ¬ colonWsAt c j := by
  cases c with
  | nil => simp [findBoundary] at h
  | cons a tail =>
    rw [findBoundary, Option.map_eq_some'] at h
    rcases h with ⟨⟨p1, p2⟩, hp, heq⟩
    rcases findColonWs_some tail p1 p2 hp with ⟨w, hw1, hw2, hw3⟩
    simp only [Prod.mk.injEq] at heq
    refine ⟨w, ?_, hw2, ?_, ?_⟩
    · rw [← heq.1, ← heq.2, hw1]; rfl
    · rw [← heq.1]; exact List.cons_ne_nil a p1
    · intro j h1 hj
      cases j with
      | zero => exact absurd h1 (by simp)
      | succ k =>
        rw [colonWsAt_cons]
        apply hw3
        rw [← heq.1] at hj
        simpa using Nat.lt_of_succ_lt_succ hj

/-- The rest after a findBoundary match is strictly shorter. -/
theorem findBoundary_rest_lt (c cap rest : Chars)
    (h : findBoundary c = some (cap, rest)) : rest.length < c.length := by
  rcases findBoundary_some c cap rest h with ⟨w, hw1, -, -, -⟩
  rw [hw1]
  simp only [List.length_append, List.length_cons]
  omega

/-- The fuelled author split ignores any fuel at least the length. -/
theorem pySplitGNGo_eq_of_le (f g : Nat) (c : Chars) (hf : c.length ≤ f)
    (hg : c.length ≤ g) : pySplitGNGo f c = pySplitGNGo g c := by
  induction f using Nat.strong_induction_on generalizing g c with
  | _ f ihf =>
    cases f with
    | zero =>
      have hc : c = [] := List.length_eq_zero.mp (Nat.le_zero.mp hf)
      subst hc
      cases g with
      | zero => rfl
      | succ g' => simp [pySplitGNGo, findBoundary]
    | succ f' =>
      cases g with
      | zero =>
        have hc : c = [] := List.length_eq_zero.mp (Nat.le_zero.mp hg)
        subst hc
        simp [pySplitGNGo, findBoundary]
      | succ g' =>
        rw [pySplitGNGo, pySplitGNGo]
        cases hfb : findBoundary c with
        | none => rfl
        | some p =>
          obtain ⟨cap, rest⟩ := p
          have hlt := findBoundary_rest_lt c cap rest hfb
          simp only []
          rw [ihf f' (Nat.lt_succ_self f') (g := g') (c := rest)
            (by omega) (by omega)]

/-- Unfolding of the fuelled author split at positive fuel. -/
theorem pySplitGNGo_succ (f : Nat) (c : Chars) :
    pySplitGNGo (f + 1) c = match findBoundary c with
      | none => [c]
      | some (cap, rest) => [] :: cap :: pySplitGNGo f rest := rfl

/-- One-step unfolding of the author split. -/
theorem pySplitGN_eq (c : Chars) :
    pySplitGN c = match findBoundary c with
      | none => [c]
      | some (cap, rest) => [] :: cap :: pySplitGN rest := by
  cases hfb : findBoundary c with
  | none =>
    show pySplitGNGo c.length c = [c]
    cases hl : c.length with
    | zero =>
      have hc : c = [] := List.length_eq_zero.mp hl
      subst hc
      rfl
    | succ k =>
      rw [pySplitGNGo_succ, hfb]
  | some p =>
    obtain ⟨cap, rest⟩ := p
    have hlt := findBoundary_rest_lt c cap rest hfb
    show pySplitGNGo c.length c = [] :: cap :: pySplitGN rest
    cases hl : c.length with
    | zero => omega
    | succ k =>
      rw [pySplitGNGo_succ, hfb]
      show [] :: cap :: pySplitGNGo k rest =
        [] :: cap :: pySplitGNGo rest.length rest
      rw [pySplitGNGo_eq_of_le k rest.length rest (by omega) (by omega)]

/-- Single-piece joins are the piece itself. -/
theorem joinSp_single (x : Chars) : joinSp [x] = x := by
  simp [joinSp, List.intercalate]

/-- Claim C2 as amended: a boundary is a colon followed by any
whitespace character, not only a space.  When a chunk has a boundary
at some index of at least one, the author is the non-empty text before
the first such boundary, and the text is the single-space join of the
re.split pieces of the rest (an empty piece and a capture for every
further boundary, then the tail); when the rest has no further
boundary this join is the rest itself, i.e. everything after the
boundary's colon and single whitespace character.  When the chunk has
no boundary the author is the sentinel group_notification and the text
is the whole chunk. -/
theorem c2_author_split_amended (c cap rest : Chars) :
    (findBoundary c = none ↔ ∀ j, ¬ colonWsAt c (j + 1)) ∧
    (findBoundary c = some (cap, rest) →
      ∃ w, c = cap ++ ':' :: w :: rest ∧ isPySpace w = true ∧ cap ≠ [] ∧
        ∀ j, 1 ≤ j → j < cap.length → ¬ colonWsAt c j) ∧
    (findBoundary c = none → splitAuthorPy c = (gnUser, c)) ∧
    (findBoundary c = some (cap, rest) →
      splitAuthorPy c = (cap, joinSp (pySplitGN rest)) ∧
      (findBoundary rest = none → splitAuthorPy c = (cap, rest))) := by
  refine ⟨findBoundary_none_iff c, findBoundary_some c cap rest, ?_, ?_⟩
  · intro h
    rw [splitAuthorPy, pySplitGN_eq, h]
    rfl
  · intro h
    have hs : splitAuthorPy c = (cap, joinSp (pySplitGN rest)) := by
      rw [splitAuthorPy, pySplitGN_eq, h]
      simp
    refine ⟨hs, fun h2 => ?_⟩
    rw [hs, pySplitGN_eq, h2, joinSp_single]

/-- Witness for the amended claim C2 on a one-boundary chunk. -/
theorem c2_author_split_witness :
    splitAuthorPy "Alice: hi".toList = ("Alice".toList, "hi".toList) :=
  ((c2_author_split_amended "Alice: hi".toList "Alice".toList
    "hi".toList).2.2.2 (by decide)).2 (by decide)

/-- Claim C2, counterexample: on the chunk Bob colon tab see colon
space this, the code takes the colon-tab pair as the first boundary
(the claim's colon-space reading would put the boundary after see) and
rejoins the pieces of the rest with single spaces, producing the author
Bob with text space-see-space-this instead of the claimed author
Bob-colon-tab-see with unchanged text this. -/
theorem c2_author_split_counterexample :
    splitAuthorPy "Bob:\tsee: this".toList =
      ("Bob".toList, " see this".toList) ∧
    splitAuthorPy "Bob:\tsee: this".toList ≠
      ("Bob:\tsee".toList, "this".toList) := by
  decide

/- # Claim C8 -/

/-- Membership in a dedup insertion. -/
theorem mem_insertSortedDedup (le : Chars → Chars → Bool) (x y : Chars)
    (l : List Chars) :
    y ∈ insertSortedDedup le x l ↔ y = x ∨ y ∈ l := by
  induction l with
  | nil => simp [insertSortedDedup]
  | cons z zs ih =>
    rw [insertSortedDedup]
    by_cases hxz : (x == z) = true
    · rw [if_pos hxz]
      rw [beq_iff_eq] at hxz
      subst hxz
      simp only [List.mem_cons]
      tauto
    · rw [if_neg hxz]
      by_cases hle : (le x z) = true
      · rw [if_pos hle]
        simp only [List.mem_cons]
      · rw [if_neg hle]
        simp only [List.mem_cons, ih]
        tauto

/-- Membership in the sorted deduplication is membership in the
input. -/
theorem mem_sortedDedup (le : Chars → Chars → Bool) (l : List Chars)
    (y : Chars) : y ∈ sortedDedup le l ↔ y ∈ l := by
  suffices h : ∀ acc : List Chars,
      y ∈ l.foldl (fun a x => insertSortedDedup le x a) acc ↔
        y ∈ acc ∨ y ∈ l by
    simpa [sortedDedup] using h []
  induction l with
  | nil => simp
  | cons z zs ih =>
    intro acc
    simp only [List.foldl_cons, ih, mem_insertSortedDedup, List.mem_cons]
    tauto

/-- find? on keyed rows built from a list containing the key. -/
theorem find?_keyed_mem {γ : Type} (f : Chars → Chars × γ)
    (hf : ∀ x, (f x).1 = x) (days : List Chars) (d : Chars)
    (hd : d ∈ days) :
    (days.map f).find? (fun row => row.1 == d) = some (f d) := by
  induction days with
  | nil => cases hd
  | cons x xs ih =>
    rw [List.map_cons]
    by_cases hxd : x = d
    · subst hxd
      rw [List.find?_cons_of_pos]
      simp [hf x]
    · rw [List.find?_cons_of_neg]
      · refine ih ?_
        rcases List.mem_cons.mp hd with h | h
        · exact absurd h.symm hxd
        · exact h
      · simp only [hf x, beq_iff_eq]
        exact hxd

/-- find? on keyed rows built from a list missing the key. -/
theorem find?_keyed_not_mem {γ : Type} (f : Chars → Chars × γ)
    (hf : ∀ x, (f x).1 = x) (days : List Chars) (d : Chars)
    (hd : d ∉ days) :
    (days.map f).find? (fun row => row.1 == d) = none := by
  induction days with
  | nil => rfl
  | cons x xs ih =>
    rw [List.map_cons, List.find?_cons_of_neg]
    · exact ih (fun h => hd (List.mem_cons_of_mem x h))
    · simp only [hf x, beq_iff_eq]
      intro h
      exact hd (h ▸ List.mem_cons_self x xs)

/-- Applying the zero fill to a pivot row turns every cell into the
plain count of its weekday-and-bucket pair. -/
theorem fill_cells (df' : List Record) (d : Chars) :
    ((heatCols df').map (fun p =>
       let c := (df'.filter
         (fun r => dayNm r == d && periodOf r == p)).length
       if c = 0 then none else some c)).map (fun c => some (c.getD 0)) =
    (heatCols df').map (fun p =>
       some ((df'.filter
         (fun r => dayNm r == d && periodOf r == p)).length)) := by
  rw [List.map_map]
  apply List.map_congr_left
  intro p _
  show some ((if (df'.filter
      (fun r => dayNm r == d && periodOf r == p)).length = 0 then none
    else some (df'.filter
      (fun r => dayNm r == d && periodOf r == p)).length).getD 0) =
    some (df'.filter (fun r => dayNm r == d && periodOf r == p)).length
  by_cases hc :
      (df'.filter (fun r => dayNm r == d && periodOf r == p)).length = 0
  · rw [if_pos hc, hc]
    rfl
  · rw [if_neg hc]
    rfl

/-- Claim C8, counterexample: on a frame with a single Monday record,
the heatmap's Tuesday row holds a missing value (NaN) in the one
occurring hour-bucket column, not the claimed zero, because the zero
fill runs before the weekday reindex. -/
theorem c8_heatmap_counterexample :
    activity_heatmap ovl [recMonday] =
      [("Monday".toList, [some 1]), ("Tuesday".toList, [none]),
       ("Wednesday".toList, [none]), ("Thursday".toList, [none]),
       ("Friday".toList, [none]), ("Saturday".toList, [none]),
       ("Sunday".toList, [none])] ∧
    (none : Option Nat) ≠ some 0 := by
  decide

/-- Claim C8 as amended: the heatmap rows are the weekdays in canonical
Monday-first order; the columns are exactly the hour buckets occurring
in the filtered data; for a weekday occurring in the filtered data
every cell is the count of that weekday-and-bucket pair, so missing
combinations on such a row appear as 0; a weekday with no records at
all yields a row of missing (NaN) cells instead of zeros. -/
theorem c8_heatmap_amended (u : Chars) (df : List Record) :
    (∀ p, p ∈ heatCols (filterUser u df) ↔
      ∃ r ∈ filterUser u df, periodOf r = p) ∧
    activity_heatmap u df = dayOrder.map (fun d =>
      (d, if d ∈ (filterUser u df).map dayNm then
            (heatCols (filterUser u df)).map (fun p =>
              some ((filterUser u df).filter
                (fun r => dayNm r == d && periodOf r == p)).length)
          else (heatCols (filterUser u df)).map
            (fun _ => (none : Option Nat)))) := by
  constructor
  · intro p
    simp [heatCols, mem_sortedDedup, List.mem_map]
  · have hdef : activity_heatmap u df = dayOrder.map (fun d =>
      match ((pivotRows (filterUser u df)).map
          (fun row => (row.1, row.2.map (fun c => some (c.getD 0))))).find?
          (fun row => row.1 == d) with
      | some row => (d, row.2)
      | none => (d, (heatCols (filterUser u df)).map
          (fun _ => (none : Option Nat)))) := rfl
    rw [hdef]
    apply List.map_congr_left
    intro d _
    rw [pivotRows, List.map_map]
    by_cases hd : d ∈ (filterUser u df).map dayNm
    · rw [find?_keyed_mem _ (fun x => rfl) _ d
        ((mem_sortedDedup _ _ _).mpr hd)]
      rw [if_pos hd]
      show (d, ((heatCols (filterUser u df)).map (fun p =>
        let c := ((filterUser u df).filter
          (fun r => dayNm r == d && periodOf r == p)).length
        if c = 0 then none else some c)).map
          (fun c => some (c.getD 0))) = _
      rw [fill_cells]
    · rw [find?_keyed_not_mem _ (fun x => rfl) _ d
        (fun h => hd ((mem_sortedDedup _ _ _).mp h))]
      rw [if_neg hd]

/- # Claim C9 -/

/-- First export of the concatenation counterexample; it begins with a
timestamp match and ends with a bare digit. -/
def exportA : Chars := "1/1/23, 10:00 - Alice: x 1".toList

/-- Second export of the concatenation counterexample; it begins with a
timestamp match. -/
def exportB : Chars := "2/08/23, 10:16 - Bob: hi".toList

/-- Claim C9, counterexample: both exports begin with a timestamp
match, yet parsing their concatenation differs from the concatenation
of their parses, because the trailing digit of the first export fuses
with the leading day digit of the second into a timestamp match that
crosses the boundary (Alice's text loses its trailing characters and
Bob's record moves to day 12). -/
theorem c9_concat_counterexample :
    matchTsAt exportA ≠ none ∧ matchTsAt exportB ≠ none ∧
    (preprocess (exportA ++ exportB)).1 ≠
      (preprocess exportA).1 ++ (preprocess exportB).1 := by
  decide

/-- Append stability of the literal step. -/
theorem dropLit_append (c : Char) (s t r : Chars)
    (h : dropLit c s = some r) : dropLit c (s ++ t) = some (r ++ t) := by
  cases s with
  | nil => cases h
  | cons x xs =>
    rw [dropLit] at h
    by_cases hx : (x == c) = true
    · rw [if_pos hx] at h
      cases h
      rw [List.cons_append, dropLit, if_pos hx]
    · rw [if_neg hx] at h
      cases h

/-- Append stability of the single-whitespace step. -/
theorem dropWs1_append (s t r : Chars) (h : dropWs1 s = some r) :
    dropWs1 (s ++ t) = some (r ++ t) := by
  cases s with
  | nil => cases h
  | cons x xs =>
    rw [dropWs1] at h
    by_cases hx : isPySpace x = true
    · rw [if_pos hx] at h
      cases h
      rw [List.cons_append, dropWs1, if_pos hx]
    · rw [if_neg hx] at h
      cases h

/-- Append stability of the AM/PM step. -/
theorem dropAmPm_append (s t r : Chars) (h : dropAmPm s = some r) :
    dropAmPm (s ++ t) = some (r ++ t) := by
  match s with
  | [] => cases h
  | [x] => cases h
  | x :: y :: xs =>
    rw [dropAmPm] at h
    by_cases hx : ((x == 'A' || x == 'P' || x == 'a' || x == 'p') &&
        (y == 'M' || y == 'm')) = true
    · rw [if_pos hx] at h
      cases h
      rw [List.cons_append, List.cons_append, dropAmPm, if_pos hx]
    · rw [if_neg hx] at h
      cases h

/-- Append stability of the two-digit step. -/
theorem dropTwoDigits_append (s t r : Chars)
    (h : dropTwoDigits s = some r) :
    dropTwoDigits (s ++ t) = some (r ++ t) := by
  match s with
  | [] => cases h
  | [x] => cases h
  | x :: y :: xs =>
    rw [dropTwoDigits] at h
    by_cases hx : (x.isDigit && y.isDigit) = true
    · rw [if_pos hx] at h
      cases h
      rw [List.cons_append, List.cons_append, dropTwoDigits, if_pos hx]
    · rw [if_neg hx] at h
      cases h

/-- takeWhile and dropWhile look only before the first failing element,
so they commute with appending when the scanned part keeps a failing
element. -/
theorem takeDropWhile_append (p : Char → Bool) (s t : Chars)
    (h : s.dropWhile p ≠ []) :
    (s ++ t).takeWhile p = s.takeWhile p ∧
    (s ++ t).dropWhile p = s.dropWhile p ++ t := by
  induction s with
  | nil => simp at h
  | cons a as ih =>
    by_cases hp : p a = true
    · rw [List.dropWhile_cons_of_pos hp] at h
      rcases ih h with ⟨h1, h2⟩
      constructor
      · rw [List.cons_append, List.takeWhile_cons_of_pos hp,
          List.takeWhile_cons_of_pos hp, h1]
      · rw [List.cons_append, List.dropWhile_cons_of_pos hp,
          List.dropWhile_cons_of_pos hp, h2]
    · rw [Bool.not_eq_true] at hp
      constructor
      · rw [List.cons_append, List.takeWhile_cons_of_neg (by simp [hp]),
          List.takeWhile_cons_of_neg (by simp [hp])]
      · rw [List.cons_append, List.dropWhile_cons_of_neg (by simp [hp]),
          List.dropWhile_cons_of_neg (by simp [hp]), List.cons_append]

/-- Append stability of the bounded digit-run step, provided the run
stops before the end of the scanned part. -/
theorem dropDigits_append (lo hi : Nat) (s t r : Chars)
    (h : dropDigits lo hi s = some r) (hr : r ≠ []) :
    dropDigits lo hi (s ++ t) = some (r ++ t) := by
  unfold dropDigits at h ⊢
  by_cases hc : lo ≤ (s.takeWhile Char.isDigit).length ∧
      (s.takeWhile Char.isDigit).length ≤ hi
  · rw [if_pos hc] at h
    cases h
    rcases takeDropWhile_append Char.isDigit s t hr with ⟨h1, h2⟩
    rw [h2]
    have hc' : lo ≤ ((s ++ t).takeWhile Char.isDigit).length ∧
        ((s ++ t).takeWhile Char.isDigit).length ≤ hi := by
      rw [h1]; exact hc
    rw [if_pos hc']
  · rw [if_neg hc] at h
    cases h

/-- Shape of a successful literal step. -/
theorem dropLit_shape (c : Char) (s r : Chars) (h : dropLit c s = some r) :
    s = c :: r := by
  cases s with
  | nil => cases h
  | cons x xs =>
    rw [dropLit] at h
    by_cases hx : (x == c) = true
    · rw [if_pos hx] at h
      cases h
      rw [beq_iff_eq] at hx
      rw [hx]
    · rw [if_neg hx] at h
      cases h

/-- Shape of a successful single-whitespace step. -/
theorem dropWs1_shape (s r : Chars) (h : dropWs1 s = some r) :
    ∃ x, s = x :: r ∧ isPySpace x = true := by
  cases s with
  | nil => cases h
  | cons x xs =>
    rw [dropWs1] at h
    by_cases hx : isPySpace x = true
    · rw [if_pos hx] at h
      cases h
      exact ⟨x, rfl, hx⟩
    · rw [if_neg hx] at h
      cases h

/-- Shape of a successful AM/PM step. -/
theorem dropAmPm_shape (s r : Chars) (h : dropAmPm s = some r) :
    ∃ x y, s = x :: y :: r ∧
      (x == 'A' || x == 'P' || x == 'a' || x == 'p') = true ∧
      (y == 'M' || y == 'm') = true := by
  match s with
  | [] => cases h
  | [x] => cases h
  | x :: y :: xs =>
    rw [dropAmPm] at h
    by_cases hx : ((x == 'A' || x == 'P' || x == 'a' || x == 'p') &&
        (y == 'M' || y == 'm')) = true
    · rw [if_pos hx] at h
      cases h
      rw [Bool.and_eq_true] at hx
      exact ⟨x, y, rfl, hx.1, hx.2⟩
    · rw [if_neg hx] at h
      cases h

/-- Shape of a successful two-digit step. -/
theorem dropTwoDigits_shape (s r : Chars) (h : dropTwoDigits s = some r) :
    ∃ x y, s = x :: y :: r ∧ x.isDigit = true ∧ y.isDigit = true := by
  match s with
  | [] => cases h
  | [x] => cases h
  | x :: y :: xs =>
    rw [dropTwoDigits] at h
    by_cases hx : (x.isDigit && y.isDigit) = true
    · rw [if_pos hx] at h
      cases h
      rw [Bool.and_eq_true] at hx
      exact ⟨x, y, rfl, hx.1, hx.2⟩
    · rw [if_neg hx] at h
      cases h

/-- Shape of a successful bounded digit-run step. -/
theorem dropDigits_shape (lo hi : Nat) (s r : Chars)
    (h : dropDigits lo hi s = some r) :
    r = s.dropWhile Char.isDigit ∧
      lo ≤ (s.takeWhile Char.isDigit).length ∧
      (s.takeWhile Char.isDigit).length ≤ hi := by
  unfold dropDigits at h
  by_cases hc : lo ≤ (s.takeWhile Char.isDigit).length ∧
      (s.takeWhile Char.isDigit).length ≤ hi
  · rw [if_pos hc] at h
    cases h
    exact ⟨rfl, hc.1, hc.2⟩
  · rw [if_neg hc] at h
    cases h

/-- The first character of the AM/PM class is not whitespace. -/
theorem ampm_first_not_ws (x : Char)
    (h : (x == 'A' || x == 'P' || x == 'a' || x == 'p') = true) :
    isPySpace x = false := by
  simp only [Bool.or_eq_true, beq_iff_eq] at h
  rcases h with ((rfl | rfl) | rfl) | rfl <;> decide

/-- A whitespace character is not in the AM/PM first-character class. -/
theorem ws_not_ampm_first (x : Char) (h : isPySpace x = true) :
    (x == 'A' || x == 'P' || x == 'a' || x == 'p') = false := by
  cases hb : (x == 'A' || x == 'P' || x == 'a' || x == 'p') with
  | false => rfl
  | true =>
    have hx := ampm_first_not_ws x hb
    rw [h] at hx
    cases hx

/-- The AM/PM step fails on any head outside its first-character
class. -/
theorem dropAmPm_not_first (x : Char) (l : Chars)
    (hx : (x == 'A' || x == 'P' || x == 'a' || x == 'p') = false) :
    dropAmPm (x :: l) = none := by
  cases l with
  | nil => rfl
  | cons y ys =>
    rw [dropAmPm, hx, Bool.false_and]
    rfl

/-- The single-whitespace step fails on a non-whitespace head. -/
theorem dropWs1_not_ws (x : Char) (l : Chars) (hx : isPySpace x = false) :
    dropWs1 (x :: l) = none := by
  rw [dropWs1, hx]
  rfl

/-- The single-whitespace step consumes a whitespace head. -/
theorem dropWs1_ws (x : Char) (l : Chars) (hx : isPySpace x = true) :
    dropWs1 (x :: l) = some l := by
  rw [dropWs1, if_pos hx]

/-- Append stability of the whitespace-dash-whitespace tail. -/
theorem matchDash_append (s t r : Chars) (h : matchDash s = some r) :
    matchDash (s ++ t) = some (r ++ t) := by
  unfold matchDash at h ⊢
  cases h1 : dropWs1 s with
  | none => rw [h1] at h; cases h
  | some s1 =>
    rw [h1, Option.some_bind] at h
    cases h2 : dropLit '-' s1 with
    | none => rw [h2] at h; cases h
    | some s2 =>
      rw [h2, Option.some_bind] at h
      rw [dropWs1_append s t s1 h1, Option.some_bind,
        dropLit_append '-' s1 t s2 h2, Option.some_bind]
      exact dropWs1_append s2 t r h

/-- Shape of a successful whitespace-dash-whitespace tail. -/
theorem matchDash_shape (s r : Chars) (h : matchDash s = some r) :
    ∃ w1 w2, s = w1 :: '-' :: w2 :: r ∧ isPySpace w1 = true ∧
      isPySpace w2 = true := by
  unfold matchDash at h
  cases h1 : dropWs1 s with
  | none => rw [h1] at h; cases h
  | some s1 =>
    rw [h1, Option.some_bind] at h
    cases h2 : dropLit '-' s1 with
    | none => rw [h2] at h; cases h
    | some s2 =>
      rw [h2, Option.some_bind] at h
      rcases dropWs1_shape s s1 h1 with ⟨w1, hs, hw1⟩
      rcases dropWs1_shape s2 r h with ⟨w2, hs2, hw2⟩
      refine ⟨w1, w2, ?_, hw1, hw2⟩
      rw [hs, dropLit_shape '-' s1 s2 h2, hs2]

/-- Append stability of the first tail alternative (whitespace, AM/PM,
dash part). -/
theorem altOne_append (s t r : Chars)
    (h : ((dropWs1 s).bind dropAmPm).bind matchDash = some r) :
    ((dropWs1 (s ++ t)).bind dropAmPm).bind matchDash = some (r ++ t) := by
  cases h1 : dropWs1 s with
  | none => rw [h1] at h; cases h
  | some s1 =>
    rw [h1, Option.some_bind] at h
    cases h2 : dropAmPm s1 with
    | none => rw [h2] at h; cases h
    | some s2 =>
      rw [h2, Option.some_bind] at h
      rw [dropWs1_append s t s1 h1, Option.some_bind,
        dropAmPm_append s1 t s2 h2, Option.some_bind]
      exact matchDash_append s2 t r h

/-- Append stability of the second tail alternative (AM/PM, dash
part). -/
theorem altTwo_append (s t r : Chars)
    (h : (dropAmPm s).bind matchDash = some r) :
    (dropAmPm (s ++ t)).bind matchDash = some (r ++ t) := by
  cases h1 : dropAmPm s with
  | none => rw [h1] at h; cases h
  | some s1 =>
    rw [h1, Option.some_bind] at h
    rw [dropAmPm_append s t s1 h1, Option.some_bind]
    exact matchDash_append s1 t r h

/-- Append stability of the whole pattern tail, including the
backtracking order of its alternatives. -/
theorem matchTail_append (s t r : Chars) (h : matchTail s = some r) :
    matchTail (s ++ t) = some (r ++ t) := by
  unfold matchTail at h ⊢
  cases h1 : ((dropWs1 s).bind dropAmPm).bind matchDash with
  | some r1 =>
    rw [h1] at h
    have h' : some r1 = some r := h
    rw [show r = r1 from (Option.some.inj h').symm]
    rw [altOne_append s t r1 h1]
  | none =>
    rw [h1] at h
    cases h2 : (dropAmPm s).bind matchDash with
    | some r2 =>
      rw [h2] at h
      have h' : some r2 = some r := h
      rw [show r = r2 from (Option.some.inj h').symm]
      have ha1 : ((dropWs1 (s ++ t)).bind dropAmPm).bind matchDash =
          none := by
        cases h3 : dropAmPm s with
        | none => rw [h3] at h2; cases h2
        | some s1 =>
          rcases dropAmPm_shape s s1 h3 with ⟨x, y, hs, hx, _⟩
          rw [hs]
          rw [show (x :: y :: s1) ++ t = x :: ((y :: s1) ++ t) from rfl]
          rw [dropWs1_not_ws x ((y :: s1) ++ t) (ampm_first_not_ws x hx)]
          rfl
      rw [ha1, altTwo_append s t r2 h2]
    | none =>
      rw [h2] at h
      have h' : matchDash s = some r := h
      rcases matchDash_shape s r h' with ⟨w1, w2, hs, hw1, hw2⟩
      have ha1 : ((dropWs1 (s ++ t)).bind dropAmPm).bind matchDash =
          none := by
        rw [hs]
        rw [show (w1 :: '-' :: w2 :: r) ++ t =
          w1 :: ('-' :: (w2 :: r ++ t)) from rfl]
        rw [dropWs1_ws w1 ('-' :: (w2 :: r ++ t)) hw1, Option.some_bind]
        rw [dropAmPm_not_first '-' (w2 :: r ++ t) (by decide)]
        rfl
      have ha2 : (dropAmPm (s ++ t)).bind matchDash = none := by
        rw [hs]
        rw [show (w1 :: '-' :: w2 :: r) ++ t =
          w1 :: '-' :: (w2 :: r ++ t) from rfl]
        rw [dropAmPm_not_first w1 ('-' :: (w2 :: r ++ t))
          (ws_not_ampm_first w1 hw1)]
        rfl
      rw [ha1, ha2]
      exact matchDash_append s t r h'

/-- Append stability of the whole timestamp-pattern matcher. -/
theorem matchTsAt_append (s t r : Chars) (h : matchTsAt s = some r) :
    matchTsAt (s ++ t) = some (r ++ t) := by
  unfold matchTsAt at h ⊢
  obtain ⟨s1, g1⟩ : ∃ x, dropDigits 1 2 s = some x := by
    cases g : dropDigits 1 2 s with
    | none => rw [g] at h; simp at h
    | some x => exact ⟨x, rfl⟩
  rw [g1, Option.some_bind] at h
  obtain ⟨s2, g2⟩ : ∃ x, dropLit '/' s1 = some x := by
    cases g : dropLit '/' s1 with
    | none => rw [g] at h; simp at h
    | some x => exact ⟨x, rfl⟩
  rw [g2, Option.some_bind] at h
  obtain ⟨s3, g3⟩ : ∃ x, dropDigits 1 2 s2 = some x := by
    cases g : dropDigits 1 2 s2 with
    | none => rw [g] at h; simp at h
    | some x => exact ⟨x, rfl⟩
  rw [g3, Option.some_bind] at h
  obtain ⟨s4, g4⟩ : ∃ x, dropLit '/' s3 = some x := by
    cases g : dropLit '/' s3 with
    | none => rw [g] at h; simp at h
    | some x => exact ⟨x, rfl⟩
  rw [g4, Option.some_bind] at h
  obtain ⟨s5, g5⟩ : ∃ x, dropDigits 2 4 s4 = some x := by
    cases g : dropDigits 2 4 s4 with
    | none => rw [g] at h; simp at h
    | some x => exact ⟨x, rfl⟩
  rw [g5, Option.some_bind] at h
  obtain ⟨s6, g6⟩ : ∃ x, dropLit ',' s5 = some x := by
    cases g : dropLit ',' s5 with
    | none => rw [g] at h; simp at h
    | some x => exact ⟨x, rfl⟩
  rw [g6, Option.some_bind] at h
  obtain ⟨s7, g7⟩ : ∃ x, dropWs1 s6 = some x := by
    cases g : dropWs1 s6 with
    | none => rw [g] at h; simp at h
    | some x => exact ⟨x, rfl⟩
  rw [g7, Option.some_bind] at h
  obtain ⟨s8, g8⟩ : ∃ x, dropDigits 1 2 s7 = some x := by
    cases g : dropDigits 1 2 s7 with
    | none => rw [g] at h; simp at h
    | some x => exact ⟨x, rfl⟩
  rw [g8, Option.some_bind] at h
  obtain ⟨s9, g9⟩ : ∃ x, dropLit ':' s8 = some x := by
    cases g : dropLit ':' s8 with
    | none => rw [g] at h; simp at h
    | some x => exact ⟨x, rfl⟩
  rw [g9, Option.some_bind] at h
  obtain ⟨s10, g10⟩ : ∃ x, dropTwoDigits s9 = some x := by
    cases g : dropTwoDigits s9 with
    | none => rw [g] at h; simp at h
    | some x => exact ⟨x, rfl⟩
  rw [g10, Option.some_bind] at h
  rw [dropDigits_append 1 2 s t s1 g1
      (by rw [dropLit_shape '/' s1 s2 g2]; exact List.cons_ne_nil _ _),
    Option.some_bind, dropLit_append '/' s1 t s2 g2, Option.some_bind,
    dropDigits_append 1 2 s2 t s3 g3
      (by rw [dropLit_shape '/' s3 s4 g4]; exact List.cons_ne_nil _ _),
    Option.some_bind, dropLit_append '/' s3 t s4 g4, Option.some_bind,
    dropDigits_append 2 4 s4 t s5 g5
      (by rw [dropLit_shape ',' s5 s6 g6]; exact List.cons_ne_nil _ _),
    Option.some_bind, dropLit_append ',' s5 t s6 g6, Option.some_bind,
    dropWs1_append s6 t s7 g7, Option.some_bind,
    dropDigits_append 1 2 s7 t s8 g8
      (by rw [dropLit_shape ':' s8 s9 g9]; exact List.cons_ne_nil _ _),
    Option.some_bind, dropLit_append ':' s8 t s9 g9, Option.some_bind,
    dropTwoDigits_append s9 t s10 g10, Option.some_bind]
  exact matchTail_append s10 t r h

/-- getLast? of a cons with non-empty tail. -/
theorem getLast?_cons_ne (x : Char) (l : Chars) (hl : l ≠ []) :
    (x :: l).getLast? = l.getLast? := by
  cases l with
  | nil => exact absurd rfl hl
  | cons y ys => exact List.getLast?_cons_cons

/-- The last element belongs to the list. -/
theorem mem_of_getLast?_eq (l : Chars) (a : Char)
    (h : l.getLast? = some a) : a ∈ l := by
  induction l with
  | nil => cases h
  | cons x xs ih =>
    cases xs with
    | nil =>
      have : x = a := by
        have h' : some x = some a := h
        exact Option.some.inj h'
      rw [this]
      exact List.mem_cons_self a []
    | cons y ys =>
      rw [List.getLast?_cons_cons] at h
      exact List.mem_cons_of_mem x (ih h)

/-- A digit is not in the AM/PM first-character class. -/
theorem digit_not_ampm (d : Char) (hd : d.isDigit = true) :
    (d == 'A' || d == 'P' || d == 'a' || d == 'p') = false := by
  cases hb : (d == 'A' || d == 'P' || d == 'a' || d == 'p') with
  | false => rfl
  | true =>
    simp only [Bool.or_eq_true, beq_iff_eq] at hb
    rcases hb with ((rfl | rfl) | rfl) | rfl <;> cases hd

/-- A digit is not a dash. -/
theorem digit_not_dash (d : Char) (hd : d.isDigit = true) :
    (d == '-') = false := by
  cases hb : (d == '-') with
  | false => rfl
  | true =>
    rw [beq_iff_eq] at hb
    subst hb
    cases hd

/-- A list whose digit prefix is non-empty starts with a digit. -/
theorem head_digit_of_takeWhile (b : Chars)
    (h : 1 ≤ (b.takeWhile Char.isDigit).length) :
    ∃ d b', b = d :: b' ∧ d.isDigit = true := by
  cases b with
  | nil => simp at h
  | cons d b' =>
    by_cases hd : d.isDigit = true
    · exact ⟨d, b', rfl, hd⟩
    · rw [List.takeWhile_cons_of_neg (by simp [hd])] at h
      simp at h

/-- A literal step other than newline, applied to a part that ends in a
newline followed by anything, consumes within the part and keeps the
trailing newline. -/
theorem dropLit_nocross (c : Char) (u b r : Chars) (hc : c ≠ '\n')
    (hne : u ≠ []) (hnl : u.getLast? = some '\n')
    (h : dropLit c (u ++ b) = some r) :
    ∃ u2, dropLit c u = some u2 ∧ r = u2 ++ b ∧ u2 ≠ [] ∧
      u2.getLast? = some '\n' := by
  cases u with
  | nil => exact absurd rfl hne
  | cons x xs =>
    rw [List.cons_append, dropLit] at h
    by_cases hx : (x == c) = true
    · rw [if_pos hx] at h
      have hr : r = xs ++ b := (Option.some.inj h).symm
      have hxs : xs ≠ [] := by
        intro h0
        subst h0
        rw [beq_iff_eq] at hx
        subst hx
        have h' : some x = some '\n' := hnl
        exact hc (Option.some.inj h')
      refine ⟨xs, by rw [dropLit, if_pos hx], hr, hxs, ?_⟩
      rw [getLast?_cons_ne x xs hxs] at hnl
      exact hnl
    · rw [if_neg hx] at h
      cases h

/-- The single-whitespace step on a part followed by anything consumes
the head of the part; the rest of the part keeps the trailing newline
when non-empty. -/
theorem dropWs1_nocross (u b r : Chars) (hne : u ≠ [])
    (hnl : u.getLast? = some '\n') (h : dropWs1 (u ++ b) = some r) :
    ∃ u2, dropWs1 u = some u2 ∧ r = u2 ++ b ∧
      (u2 ≠ [] → u2.getLast? = some '\n') := by
  cases u with
  | nil => exact absurd rfl hne
  | cons x xs =>
    rw [List.cons_append, dropWs1] at h
    by_cases hx : isPySpace x = true
    · rw [if_pos hx] at h
      refine ⟨xs, by rw [dropWs1, if_pos hx], (Option.some.inj h).symm,
        fun hxs => ?_⟩
      rw [getLast?_cons_ne x xs hxs] at hnl
      exact hnl
    · rw [if_neg hx] at h
      cases h

/-- The bounded digit-run step on a newline-terminated part followed by
anything stays within the part. -/
theorem dropDigits_nocross (lo hi : Nat) (u b r : Chars) (_hne : u ≠ [])
    (hnl : u.getLast? = some '\n')
    (h : dropDigits lo hi (u ++ b) = some r) :
    ∃ u2, dropDigits lo hi u = some u2 ∧ r = u2 ++ b ∧ u2 ≠ [] ∧
      u2.getLast? = some '\n' := by
  have hwne : u.dropWhile Char.isDigit ≠ [] := by
    intro h0
    have hall : ∀ x ∈ u, Char.isDigit x = true :=
      List.dropWhile_eq_nil_iff.mp h0
    have : Char.isDigit '\n' = true :=
      hall '\n' (mem_of_getLast?_eq u '\n' hnl)
    cases this
  rcases takeDropWhile_append Char.isDigit u b hwne with ⟨h1, h2⟩
  unfold dropDigits at h ⊢
  rw [h1, h2] at h
  by_cases hcnd : lo ≤ (u.takeWhile Char.isDigit).length ∧
      (u.takeWhile Char.isDigit).length ≤ hi
  · rw [if_pos hcnd] at h
    refine ⟨u.dropWhile Char.isDigit, by rw [if_pos hcnd],
      (Option.some.inj h).symm, hwne, ?_⟩
    have hsplit := List.takeWhile_append_dropWhile (p := Char.isDigit)
      (l := u)
    rw [← hsplit, List.getLast?_append] at hnl
    cases hgl : (u.dropWhile Char.isDigit).getLast? with
    | none =>
      rw [List.getLast?_eq_none_iff] at hgl
      exact absurd hgl hwne
    | some z =>
      rw [hgl] at hnl
      exact hnl
  · rw [if_neg hcnd] at h
    cases h

/-- The two-digit step on a newline-terminated part followed by
anything stays within the part. -/
theorem dropTwoDigits_nocross (u b r : Chars) (hne : u ≠ [])
    (hnl : u.getLast? = some '\n')
    (h : dropTwoDigits (u ++ b) = some r) :
    ∃ u2, dropTwoDigits u = some u2 ∧ r = u2 ++ b ∧ u2 ≠ [] ∧
      u2.getLast? = some '\n' := by
  match u, hne with
  | [x], _ =>
    have hx : x = '\n' := by
      have h' : some x = some '\n' := hnl
      exact Option.some.inj h'
    subst hx
    rw [show ['\n'] ++ b = '\n' :: b from rfl] at h
    cases b with
    | nil => cases h
    | cons y ys =>
      rw [dropTwoDigits] at h
      rw [show (('\n' : Char).isDigit) = false from by decide,
        Bool.false_and] at h
      cases h
  | x :: y :: us, _ =>
    rw [show (x :: y :: us) ++ b = x :: y :: (us ++ b) from rfl,
      dropTwoDigits] at h
    by_cases hx : (x.isDigit && y.isDigit) = true
    · rw [if_pos hx] at h
      have hus : us ≠ [] := by
        intro h0
        subst h0
        have h' : some y = some '\n' := by
          rw [← hnl]
          rfl
        rw [Bool.and_eq_true] at hx
        rw [Option.some.inj h'] at hx
        exact absurd hx.2 (by decide)
      refine ⟨us, by rw [dropTwoDigits, if_pos hx],
        (Option.some.inj h).symm, hus, ?_⟩
      rw [getLast?_cons_ne x (y :: us) (by simp),
        getLast?_cons_ne y us hus] at hnl
      exact hnl
    · rw [if_neg hx] at h
      cases h

/-- The AM/PM step on a newline-terminated part followed by anything
stays within the part. -/
theorem dropAmPm_nocross (u b r : Chars) (hne : u ≠ [])
    (hnl : u.getLast? = some '\n')
    (h : dropAmPm (u ++ b) = some r) :
    ∃ u2, dropAmPm u = some u2 ∧ r = u2 ++ b ∧ u2 ≠ [] ∧
      u2.getLast? = some '\n' := by
  match u, hne with
  | [x], _ =>
    have hx : x = '\n' := by
      have h' : some x = some '\n' := hnl
      exact Option.some.inj h'
    subst hx
    rw [show ['\n'] ++ b = '\n' :: b from rfl,
      dropAmPm_not_first '\n' b (by decide)] at h
    cases h
  | x :: y :: us, _ =>
    rw [show (x :: y :: us) ++ b = x :: y :: (us ++ b) from rfl,
      dropAmPm] at h
    by_cases hx : ((x == 'A' || x == 'P' || x == 'a' || x == 'p') &&
        (y == 'M' || y == 'm')) = true
    · rw [if_pos hx] at h
      have hus : us ≠ [] := by
        intro h0
        subst h0
        have h' : some y = some '\n' := by
          rw [← hnl]
          rfl
        rw [Bool.and_eq_true] at hx
        rw [Option.some.inj h'] at hx
        exact absurd hx.2 (by decide)
      refine ⟨us, by rw [dropAmPm, if_pos hx],
        (Option.some.inj h).symm, hus, ?_⟩
      rw [getLast?_cons_ne x (y :: us) (by simp),
        getLast?_cons_ne y us hus] at hnl
      exact hnl
    · rw [if_neg hx] at h
      cases h

/-- The whitespace-dash-whitespace tail cannot cross from a
newline-terminated part into a following part whose head rejects a
dash. -/
theorem matchDash_nocross (u b r : Chars) (hne : u ≠ [])
    (hnl : u.getLast? = some '\n') (hbD : dropLit '-' b = none)
    (h : matchDash (u ++ b) = some r) :
    ∃ u2, matchDash u = some u2 ∧ r = u2 ++ b := by
  unfold matchDash at h ⊢
  obtain ⟨a1, w1⟩ : ∃ x, dropWs1 (u ++ b) = some x := by
    cases g : dropWs1 (u ++ b) with
    | none => rw [g] at h; cases h
    | some x => exact ⟨x, rfl⟩
  rw [w1, Option.some_bind] at h
  rcases dropWs1_nocross u b a1 hne hnl w1 with ⟨u1, hw1, ha1, hnl1⟩
  subst ha1
  by_cases hu1 : u1 = []
  · subst hu1
    rw [List.nil_append, hbD] at h
    cases h
  · obtain ⟨a2, w2⟩ : ∃ x, dropLit '-' (u1 ++ b) = some x := by
      cases g : dropLit '-' (u1 ++ b) with
      | none => rw [g] at h; cases h
      | some x => exact ⟨x, rfl⟩
    rw [w2, Option.some_bind] at h
    rcases dropLit_nocross '-' u1 b a2 (by decide) hu1 (hnl1 hu1) w2 with
      ⟨u2, hl2, ha2, hu2, hnl2⟩
    subst ha2
    rcases dropWs1_nocross u2 b r hu2 hnl2 h with ⟨u3, hw3, hr3, -⟩
    refine ⟨u3, ?_, hr3⟩
    rw [hw1, Option.some_bind, hl2, Option.some_bind]
    exact hw3

/-- The whole pattern tail cannot cross from a newline-terminated part
into a following part whose head rejects both the AM/PM class and a
dash. -/
theorem matchTail_nocross (u b r : Chars) (hne : u ≠ [])
    (hnl : u.getLast? = some '\n') (hbA : dropAmPm b = none)
    (hbD : dropLit '-' b = none) (h : matchTail (u ++ b) = some r) :
    ∃ r0, matchTail u = some r0 ∧ r = r0 ++ b := by
  unfold matchTail at h ⊢
  cases a1 : ((dropWs1 (u ++ b)).bind dropAmPm).bind matchDash with
  | some r1 =>
    rw [a1] at h
    have h' : some r1 = some r := h
    rw [show r = r1 from (Option.some.inj h').symm]
    obtain ⟨x1, w1⟩ : ∃ x, dropWs1 (u ++ b) = some x := by
      cases g : dropWs1 (u ++ b) with
      | none => rw [g] at a1; cases a1
      | some x => exact ⟨x, rfl⟩
    rw [w1, Option.some_bind] at a1
    rcases dropWs1_nocross u b x1 hne hnl w1 with ⟨u1, hw1, hx1, hnl1⟩
    subst hx1
    by_cases hu1 : u1 = []
    · subst hu1
      rw [List.nil_append] at a1
      rw [hbA] at a1
      cases a1
    · obtain ⟨x2, w2⟩ : ∃ x, dropAmPm (u1 ++ b) = some x := by
        cases g : dropAmPm (u1 ++ b) with
        | none => rw [g] at a1; cases a1
        | some x => exact ⟨x, rfl⟩
      rw [w2, Option.some_bind] at a1
      rcases dropAmPm_nocross u1 b x2 hu1 (hnl1 hu1) w2 with
        ⟨u2, hA2, hx2, hu2, hnl2⟩
      subst hx2
      rcases matchDash_nocross u2 b r1 hu2 hnl2 hbD a1 with ⟨u3, hm3, hr3⟩
      refine ⟨u3, ?_, hr3⟩
      rw [hw1, Option.some_bind, hA2, Option.some_bind, hm3]
  | none =>
    rw [a1] at h
    have halt1u : ((dropWs1 u).bind dropAmPm).bind matchDash = none := by
      cases g : ((dropWs1 u).bind dropAmPm).bind matchDash with
      | none => rfl
      | some x =>
        rw [altOne_append u b x g] at a1
        cases a1
    cases a2 : (dropAmPm (u ++ b)).bind matchDash with
    | some r2 =>
      rw [a2] at h
      have h' : some r2 = some r := h
      rw [show r = r2 from (Option.some.inj h').symm]
      obtain ⟨x2, w2⟩ : ∃ x, dropAmPm (u ++ b) = some x := by
        cases g : dropAmPm (u ++ b) with
        | none => rw [g] at a2; cases a2
        | some x => exact ⟨x, rfl⟩
      rw [w2, Option.some_bind] at a2
      rcases dropAmPm_nocross u b x2 hne hnl w2 with
        ⟨u2, hA2, hx2, hu2, hnl2⟩
      subst hx2
      rcases matchDash_nocross u2 b r2 hu2 hnl2 hbD a2 with ⟨u3, hm3, hr3⟩
      refine ⟨u3, ?_, hr3⟩
      rw [halt1u, hA2, Option.some_bind, hm3]
    | none =>
      rw [a2] at h
      have h' : matchDash (u ++ b) = some r := h
      rcases matchDash_nocross u b r hne hnl hbD h' with ⟨u3, hm3, hr3⟩
      have halt2u : (dropAmPm u).bind matchDash = none := by
        cases g : (dropAmPm u).bind matchDash with
        | none => rfl
        | some x =>
          rw [altTwo_append u b x g] at a2
          cases a2
      refine ⟨u3, ?_, hr3⟩
      rw [halt1u, halt2u]
      exact hm3

/-- A part that begins with a timestamp match (so with one or two
digits and a slash) rejects the pattern fragments that could continue a
match across a boundary: an hour field followed by a colon, an AM/PM
marker, and a dash. -/
theorem matchTsAt_blocks (b : Chars) (hb : matchTsAt b ≠ none) :
    (dropDigits 1 2 b).bind (dropLit ':') = none ∧
    dropAmPm b = none ∧ dropLit '-' b = none := by
  cases hm : matchTsAt b with
  | none => exact absurd hm hb
  | some r0 =>
    unfold matchTsAt at hm
    obtain ⟨b1, e1⟩ : ∃ x, dropDigits 1 2 b = some x := by
      cases g : dropDigits 1 2 b with
      | none => rw [g] at hm; simp at hm
      | some x => exact ⟨x, rfl⟩
    rw [e1, Option.some_bind] at hm
    obtain ⟨b2, e2⟩ : ∃ x, dropLit '/' b1 = some x := by
      cases g : dropLit '/' b1 with
      | none => rw [g] at hm; simp at hm
      | some x => exact ⟨x, rfl⟩
    have hb1 : b1 = '/' :: b2 := dropLit_shape '/' b1 b2 e2
    rcases head_digit_of_takeWhile b (dropDigits_shape 1 2 b b1 e1).2.1
      with ⟨d, b', hb', hd⟩
    refine ⟨?_, ?_, ?_⟩
    · rw [e1, Option.some_bind, hb1, dropLit,
        show (('/' : Char) == ':') = false from by decide]
      rfl
    · rw [hb']
      exact dropAmPm_not_first d b' (digit_not_ampm d hd)
    · rw [hb', dropLit, digit_not_dash d hd]
      rfl

/-- The timestamp pattern cannot cross from a newline-terminated part
into a part that itself begins with a timestamp match: a match at the
head of the concatenation is a match at the head of the first part. -/
theorem matchTsAt_nocross (u b r : Chars) (hne : u ≠ [])
    (hnl : u.getLast? = some '\n') (hb : matchTsAt b ≠ none)
    (h : matchTsAt (u ++ b) = some r) :
    ∃ r0, matchTsAt u = some r0 ∧ r = r0 ++ b := by
  rcases matchTsAt_blocks b hb with ⟨hbH, hbA, hbD⟩
  unfold matchTsAt at h ⊢
  obtain ⟨x1, e1⟩ : ∃ x, dropDigits 1 2 (u ++ b) = some x := by
    cases g : dropDigits 1 2 (u ++ b) with
    | none => rw [g] at h; simp at h
    | some x => exact ⟨x, rfl⟩
  rw [e1, Option.some_bind] at h
  rcases dropDigits_nocross 1 2 u b x1 hne hnl e1 with
    ⟨u1, f1, hx1, hu1, hl1⟩
  subst hx1
  obtain ⟨x2, e2⟩ : ∃ x, dropLit '/' (u1 ++ b) = some x := by
    cases g : dropLit '/' (u1 ++ b) with
    | none => rw [g] at h; simp at h
    | some x => exact ⟨x, rfl⟩
  rw [e2, Option.some_bind] at h
  rcases dropLit_nocross '/' u1 b x2 (by decide) hu1 hl1 e2 with
    ⟨u2, f2, hx2, hu2, hl2⟩
  subst hx2
  obtain ⟨x3, e3⟩ : ∃ x, dropDigits 1 2 (u2 ++ b) = some x := by
    cases g : dropDigits 1 2 (u2 ++ b) with
    | none => rw [g] at h; simp at h
    | some x => exact ⟨x, rfl⟩
  rw [e3, Option.some_bind] at h
  rcases dropDigits_nocross 1 2 u2 b x3 hu2 hl2 e3 with
    ⟨u3, f3, hx3, hu3, hl3⟩
  subst hx3
  obtain ⟨x4, e4⟩ : ∃ x, dropLit '/' (u3 ++ b) = some x := by
    cases g : dropLit '/' (u3 ++ b) with
    | none => rw [g] at h; simp at h
    | some x => exact ⟨x, rfl⟩
  rw [e4, Option.some_bind] at h
  rcases dropLit_nocross '/' u3 b x4 (by decide) hu3 hl3 e4 with
    ⟨u4, f4, hx4, hu4, hl4⟩
  subst hx4
  obtain ⟨x5, e5⟩ : ∃ x, dropDigits 2 4 (u4 ++ b) = some x := by
    cases g : dropDigits 2 4 (u4 ++ b) with
    | none => rw [g] at h; simp at h
    | some x => exact ⟨x, rfl⟩
  rw [e5, Option.some_bind] at h
  rcases dropDigits_nocross 2 4 u4 b x5 hu4 hl4 e5 with
    ⟨u5, f5, hx5, hu5, hl5⟩
  subst hx5
  obtain ⟨x6, e6⟩ : ∃ x, dropLit ',' (u5 ++ b) = some x := by
    cases g : dropLit ',' (u5 ++ b) with
    | none => rw [g] at h; simp at h
    | some x => exact ⟨x, rfl⟩
  rw [e6, Option.some_bind] at h
  rcases dropLit_nocross ',' u5 b x6 (by decide) hu5 hl5 e6 with
    ⟨u6, f6, hx6, hu6, hl6⟩
  subst hx6
  obtain ⟨x7, e7⟩ : ∃ x, dropWs1 (u6 ++ b) = some x := by
    cases g : dropWs1 (u6 ++ b) with
    | none => rw [g] at h; simp at h
    | some x => exact ⟨x, rfl⟩
  rw [e7, Option.some_bind] at h
  rcases dropWs1_nocross u6 b x7 hu6 hl6 e7 with ⟨u7, f7, hx7, hl7⟩
  subst hx7
  by_cases hu7 : u7 = []
  · subst hu7
    rw [List.nil_append] at h
    obtain ⟨y8, d8⟩ : ∃ x, dropDigits 1 2 b = some x := by
      cases g : dropDigits 1 2 b with
      | none => rw [g] at h; simp at h
      | some x => exact ⟨x, rfl⟩
    rw [d8, Option.some_bind] at h
    obtain ⟨y9, d9⟩ : ∃ x, dropLit ':' y8 = some x := by
      cases g : dropLit ':' y8 with
      | none => rw [g] at h; simp at h
      | some x => exact ⟨x, rfl⟩
    rw [d8, Option.some_bind, d9] at hbH
    cases hbH
  · obtain ⟨x8, e8⟩ : ∃ x, dropDigits 1 2 (u7 ++ b) = some x := by
      cases g : dropDigits 1 2 (u7 ++ b) with
      | none => rw [g] at h; simp at h
      | some x => exact ⟨x, rfl⟩
    rw [e8, Option.some_bind] at h
    rcases dropDigits_nocross 1 2 u7 b x8 hu7 (hl7 hu7) e8 with
      ⟨u8, f8, hx8, hu8, hl8⟩
    subst hx8
    obtain ⟨x9, e9⟩ : ∃ x, dropLit ':' (u8 ++ b) = some x := by
      cases g : dropLit ':' (u8 ++ b) with
      | none => rw [g] at h; simp at h
      | some x => exact ⟨x, rfl⟩
    rw [e9, Option.some_bind] at h
    rcases dropLit_nocross ':' u8 b x9 (by decide) hu8 hl8 e9 with
      ⟨u9, f9, hx9, hu9, hl9⟩
    subst hx9
    obtain ⟨x10, e10⟩ : ∃ x, dropTwoDigits (u9 ++ b) = some x := by
      cases g : dropTwoDigits (u9 ++ b) with
      | none => rw [g] at h; simp at h
      | some x => exact ⟨x, rfl⟩
    rw [e10, Option.some_bind] at h
    rcases dropTwoDigits_nocross u9 b x10 hu9 hl9 e10 with
      ⟨u10, f10, hx10, hu10, hl10⟩
    subst hx10
    rcases matchTail_nocross u10 b r hu10 hl10 hbA hbD h with
      ⟨r0, ht, hr0⟩
    refine ⟨r0, ?_, hr0⟩
    rw [f1, Option.some_bind, f2, Option.some_bind, f3, Option.some_bind,
      f4, Option.some_bind, f5, Option.some_bind, f6, Option.some_bind,
      f7, Option.some_bind, f8, Option.some_bind, f9, Option.some_bind,
      f10, Option.some_bind]
    exact ht

/-- The pattern tail consumes a prefix. -/
theorem matchTail_decomp (s r : Chars) (h : matchTail s = some r) :
    ∃ m, s = m ++ r := by
  unfold matchTail at h
  cases a1 : ((dropWs1 s).bind dropAmPm).bind matchDash with
  | some r1 =>
    rw [a1] at h
    have h' : some r1 = some r := h
    rw [show r = r1 from (Option.some.inj h').symm]
    obtain ⟨x1, w1⟩ : ∃ x, dropWs1 s = some x := by
      cases g : dropWs1 s with
      | none => rw [g] at a1; cases a1
      | some x => exact ⟨x, rfl⟩
    rw [w1, Option.some_bind] at a1
    obtain ⟨x2, w2⟩ : ∃ x, dropAmPm x1 = some x := by
      cases g : dropAmPm x1 with
      | none => rw [g] at a1; cases a1
      | some x => exact ⟨x, rfl⟩
    rw [w2, Option.some_bind] at a1
    rcases dropWs1_shape s x1 w1 with ⟨c1, hs1, -⟩
    rcases dropAmPm_shape x1 x2 w2 with ⟨c2, c3, hs2, -, -⟩
    rcases matchDash_shape x2 r1 a1 with ⟨w01, w02, hs3, -, -⟩
    exact ⟨c1 :: c2 :: c3 :: w01 :: '-' :: [w02],
      by rw [hs1, hs2, hs3]; rfl⟩
  | none =>
    rw [a1] at h
    cases a2 : (dropAmPm s).bind matchDash with
    | some r2 =>
      rw [a2] at h
      have h' : some r2 = some r := h
      rw [show r = r2 from (Option.some.inj h').symm]
      obtain ⟨x2, w2⟩ : ∃ x, dropAmPm s = some x := by
        cases g : dropAmPm s with
        | none => rw [g] at a2; cases a2
        | some x => exact ⟨x, rfl⟩
      rw [w2, Option.some_bind] at a2
      rcases dropAmPm_shape s x2 w2 with ⟨c2, c3, hs2, -, -⟩
      rcases matchDash_shape x2 r2 a2 with ⟨w01, w02, hs3, -, -⟩
      exact ⟨c2 :: c3 :: w01 :: '-' :: [w02], by rw [hs2, hs3]; rfl⟩
    | none =>
      rw [a2] at h
      have h' : matchDash s = some r := h
      rcases matchDash_shape s r h' with ⟨w01, w02, hs3, -, -⟩
      exact ⟨w01 :: '-' :: [w02], by rw [hs3]; rfl⟩

/-- A successful timestamp match consumes a non-empty prefix. -/
theorem matchTsAt_decomp (s r : Chars) (h : matchTsAt s = some r) :
    ∃ m, s = m ++ r ∧ m ≠ [] := by
  unfold matchTsAt at h
  obtain ⟨s1, g1⟩ : ∃ x, dropDigits 1 2 s = some x := by
    cases g : dropDigits 1 2 s with
    | none => rw [g] at h; simp at h
    | some x => exact ⟨x, rfl⟩
  rw [g1, Option.some_bind] at h
  obtain ⟨s2, g2⟩ : ∃ x, dropLit '/' s1 = some x := by
    cases g : dropLit '/' s1 with
    | none => rw [g] at h; simp at h
    | some x => exact ⟨x, rfl⟩
  rw [g2, Option.some_bind] at h
  obtain ⟨s3, g3⟩ : ∃ x, dropDigits 1 2 s2 = some x := by
    cases g : dropDigits 1 2 s2 with
    | none => rw [g] at h; simp at h
    | some x => exact ⟨x, rfl⟩
  rw [g3, Option.some_bind] at h
  obtain ⟨s4, g4⟩ : ∃ x, dropLit '/' s3 = some x := by
    cases g : dropLit '/' s3 with
    | none => rw [g] at h; simp at h
    | some x => exact ⟨x, rfl⟩
  rw [g4, Option.some_bind] at h
  obtain ⟨s5, g5⟩ : ∃ x, dropDigits 2 4 s4 = some x := by
    cases g : dropDigits 2 4 s4 with
    | none => rw [g] at h; simp at h
    | some x => exact ⟨x, rfl⟩
  rw [g5, Option.some_bind] at h
  obtain ⟨s6, g6⟩ : ∃ x, dropLit ',' s5 = some x := by
    cases g : dropLit ',' s5 with
    | none => rw [g] at h; simp at h
    | some x => exact ⟨x, rfl⟩
  rw [g6, Option.some_bind] at h
  obtain ⟨s7, g7⟩ : ∃ x, dropWs1 s6 = some x := by
    cases g : dropWs1 s6 with
    | none => rw [g] at h; simp at h
    | some x => exact ⟨x, rfl⟩
  rw [g7, Option.some_bind] at h
  obtain ⟨s8, g8⟩ : ∃ x, dropDigits 1 2 s7 = some x := by
    cases g : dropDigits 1 2 s7 with
    | none => rw [g] at h; simp at h
    | some x => exact ⟨x, rfl⟩
  rw [g8, Option.some_bind] at h
  obtain ⟨s9, g9⟩ : ∃ x, dropLit ':' s8 = some x := by
    cases g : dropLit ':' s8 with
    | none => rw [g] at h; simp at h
    | some x => exact ⟨x, rfl⟩
  rw [g9, Option.some_bind] at h
  obtain ⟨s10, g10⟩ : ∃ x, dropTwoDigits s9 = some x := by
    cases g : dropTwoDigits s9 with
    | none => rw [g] at h; simp at h
    | some x => exact ⟨x, rfl⟩
  rw [g10, Option.some_bind] at h
  have d1 : s = s.takeWhile Char.isDigit ++ s1 := by
    rw [(dropDigits_shape 1 2 s s1 g1).1,
      List.takeWhile_append_dropWhile]
  have d1ne : s.takeWhile Char.isDigit ≠ [] := by
    intro h0
    have := (dropDigits_shape 1 2 s s1 g1).2.1
    rw [h0] at this
    simp at this
  have d2 : s1 = '/' :: s2 := dropLit_shape '/' s1 s2 g2
  have d3 : s2 = s2.takeWhile Char.isDigit ++ s3 := by
    rw [(dropDigits_shape 1 2 s2 s3 g3).1,
      List.takeWhile_append_dropWhile]
  have d4 : s3 = '/' :: s4 := dropLit_shape '/' s3 s4 g4
  have d5 : s4 = s4.takeWhile Char.isDigit ++ s5 := by
    rw [(dropDigits_shape 2 4 s4 s5 g5).1,
      List.takeWhile_append_dropWhile]
  have d6 : s5 = ',' :: s6 := dropLit_shape ',' s5 s6 g6
  rcases dropWs1_shape s6 s7 g7 with ⟨c7, d7, -⟩
  have d8 : s7 = s7.takeWhile Char.isDigit ++ s8 := by
    rw [(dropDigits_shape 1 2 s7 s8 g8).1,
      List.takeWhile_append_dropWhile]
  have d9 : s8 = ':' :: s9 := dropLit_shape ':' s8 s9 g9
  rcases dropTwoDigits_shape s9 s10 g10 with ⟨c10, c11, d10, -, -⟩
  rcases matchTail_decomp s10 r h with ⟨mt, dmt⟩
  have e10 : ∃ m, s9 = m ++ r := ⟨c10 :: c11 :: mt, by rw [d10, dmt]; rfl⟩
  rcases e10 with ⟨m10, hm10⟩
  have e9 : ∃ m, s8 = m ++ r := ⟨':' :: m10, by rw [d9, hm10]; rfl⟩
  rcases e9 with ⟨m9, hm9⟩
  have e8 : ∃ m, s7 = m ++ r := by
    refine ⟨s7.takeWhile Char.isDigit ++ m9, ?_⟩
    conv_lhs => rw [d8]
    rw [hm9, List.append_assoc]
  rcases e8 with ⟨m8, hm8⟩
  have e7 : ∃ m, s6 = m ++ r := ⟨c7 :: m8, by rw [d7, hm8]; rfl⟩
  rcases e7 with ⟨m7, hm7⟩
  have e6 : ∃ m, s5 = m ++ r := ⟨',' :: m7, by rw [d6, hm7]; rfl⟩
  rcases e6 with ⟨m6, hm6⟩
  have e5 : ∃ m, s4 = m ++ r := by
    refine ⟨s4.takeWhile Char.isDigit ++ m6, ?_⟩
    conv_lhs => rw [d5]
    rw [hm6, List.append_assoc]
  rcases e5 with ⟨m5, hm5⟩
  have e4 : ∃ m, s3 = m ++ r := ⟨'/' :: m5, by rw [d4, hm5]; rfl⟩
  rcases e4 with ⟨m4, hm4⟩
  have e3 : ∃ m, s2 = m ++ r := by
    refine ⟨s2.takeWhile Char.isDigit ++ m4, ?_⟩
    conv_lhs => rw [d3]
    rw [hm4, List.append_assoc]
  rcases e3 with ⟨m3, hm3⟩
  have e2 : ∃ m, s1 = m ++ r := ⟨'/' :: m3, by rw [d2, hm3]; rfl⟩
  rcases e2 with ⟨m2, hm2⟩
  refine ⟨s.takeWhile Char.isDigit ++ m2, ?_, ?_⟩
  · conv_lhs => rw [d1]
    rw [hm2, List.append_assoc]
  · intro h0
    rcases List.append_eq_nil.mp h0 with ⟨h1, -⟩
    exact d1ne h1

/-- Unfolding of the leftmost-match search on a cons. -/
theorem findTsMatch_cons (c : Char) (t : Chars) :
    findTsMatch (c :: t) = match matchTsAt (c :: t) with
      | some r => some ([], (c :: t).take ((c :: t).length - r.length), r)
      | none => (findTsMatch t).map (fun p => (c :: p.1, p.2.1, p.2.2)) :=
  rfl

/-- A leftmost match splits the input into the text before it, the
non-empty matched text and the rest. -/
theorem findTsMatch_decomp (s pre m r : Chars)
    (h : findTsMatch s = some (pre, m, r)) :
    s = pre ++ (m ++ r) ∧ m ≠ [] := by
  induction s generalizing pre m r with
  | nil => cases h
  | cons c t ih =>
    rw [findTsMatch_cons] at h
    cases hm : matchTsAt (c :: t) with
    | some r0 =>
      rw [hm] at h
      have h' : (([] : Chars), (c :: t).take ((c :: t).length - r0.length),
          r0) = (pre, m, r) := Option.some.inj h
      rcases matchTsAt_decomp (c :: t) r0 hm with ⟨m0, hm0, hm0ne⟩
      have htake : (c :: t).take ((c :: t).length - r0.length) = m0 := by
        rw [hm0, List.length_append,
          show m0.length + r0.length - r0.length = m0.length from by omega]
        exact List.take_left m0 r0
      rw [htake] at h'
      simp only [Prod.mk.injEq] at h'
      obtain ⟨hpre, hm'', hr'⟩ := h'
      rw [← hpre, ← hm'', ← hr']
      exact ⟨by rw [List.nil_append, hm0], hm0ne⟩
    | none =>
      rw [hm, Option.map_eq_some'] at h
      rcases h with ⟨⟨p2, m2, r2⟩, hp, heq⟩
      have heq' : (c :: p2, m2, r2) = (pre, m, r) := heq
      simp only [Prod.mk.injEq] at heq'
      obtain ⟨hpre, hm'', hr'⟩ := heq'
      rcases ih p2 m2 r2 hp with ⟨hd, hne⟩
      rw [← hpre, ← hm'', ← hr']
      exact ⟨by rw [List.cons_append, ← hd], hne⟩

/-- The rest after a leftmost match is strictly shorter. -/
theorem findTsMatch_rest_lt (s pre m r : Chars)
    (h : findTsMatch s = some (pre, m, r)) : r.length < s.length := by
  rcases findTsMatch_decomp s pre m r h with ⟨hd, hne⟩
  rw [hd, List.length_append, List.length_append]
  have := List.length_pos.mpr hne
  omega

/-- The scan of the empty input. -/
theorem tsScanGo_nil (f : Nat) : tsScanGo f [] = ([[]], []) := by
  cases f with
  | zero => rfl
  | succ g => rfl

/-- Unfolding of the fuelled scan at positive fuel. -/
theorem tsScanGo_succ (f : Nat) (s : Chars) :
    tsScanGo (f + 1) s = match findTsMatch s with
      | none => ([s], [])
      | some p =>
        (p.1 :: (tsScanGo f p.2.2).1, p.2.1 :: (tsScanGo f p.2.2).2) := by
  cases hf : findTsMatch s with
  | none => simp [tsScanGo, hf]
  | some p =>
    obtain ⟨b, m, r⟩ := p
    simp [tsScanGo, hf]

/-- The fuelled scan ignores any fuel at least the length. -/
theorem tsScanGo_eq_of_le (f g : Nat) (s : Chars) (hf : s.length ≤ f)
    (hg : s.length ≤ g) : tsScanGo f s = tsScanGo g s := by
  induction f using Nat.strong_induction_on generalizing g s with
  | _ f ihf =>
    cases f with
    | zero =>
      have hs : s = [] := List.length_eq_zero.mp (Nat.le_zero.mp hf)
      subst hs
      rw [tsScanGo_nil, tsScanGo_nil]
    | succ f' =>
      cases g with
      | zero =>
        have hs : s = [] := List.length_eq_zero.mp (Nat.le_zero.mp hg)
        subst hs
        rw [tsScanGo_nil, tsScanGo_nil]
      | succ g' =>
        rw [tsScanGo_succ, tsScanGo_succ]
        cases hm : findTsMatch s with
        | none => rfl
        | some p =>
          obtain ⟨b, m, r⟩ := p
          have hlt := findTsMatch_rest_lt s b m r hm
          simp only []
          rw [ihf f' (Nat.lt_succ_self f') (g := g') (s := r)
            (by omega) (by omega)]

/-- One-step unfolding of the scan. -/
theorem tsScan_eq (s : Chars) :
    tsScan s = match findTsMatch s with
      | none => ([s], [])
      | some p => (p.1 :: (tsScan p.2.2).1, p.2.1 :: (tsScan p.2.2).2) := by
  cases hm : findTsMatch s with
  | none =>
    show tsScanGo s.length s = ([s], [])
    cases hl : s.length with
    | zero =>
      have hs : s = [] := List.length_eq_zero.mp hl
      subst hs
      rw [tsScanGo_nil]
    | succ k =>
      rw [tsScanGo_succ, hm]
  | some p =>
    obtain ⟨b, m, r⟩ := p
    have hlt := findTsMatch_rest_lt s b m r hm
    show tsScanGo s.length s =
      (b :: (tsScan r).1, m :: (tsScan r).2)
    cases hl : s.length with
    | zero => omega
    | succ k =>
      rw [tsScanGo_succ, hm]
      show (b :: (tsScanGo k r).1, m :: (tsScanGo k r).2) =
        (b :: (tsScanGo r.length r).1, m :: (tsScanGo r.length r).2)
      rw [tsScanGo_eq_of_le k r.length r (by omega) (by omega)]

/-- The scan produces one more piece than matches. -/
theorem tsScan_len (s : Chars) :
    (tsScan s).1.length = (tsScan s).2.length + 1 := by
  suffices H : ∀ n (s : Chars), s.length = n →
      (tsScan s).1.length = (tsScan s).2.length + 1 from H s.length s rfl
  intro n
  induction n using Nat.strong_induction_on with
  | _ n ih =>
    intro s hs
    rw [tsScan_eq]
    cases hm : findTsMatch s with
    | none => rfl
    | some p =>
      obtain ⟨b, m, r⟩ := p
      have hlt := findTsMatch_rest_lt s b m r hm
      simp only [List.length_cons]
      rw [ih r.length (by omega) r rfl]

/-- Scanning the concatenation of a newline-terminated (or empty) part
with a part that begins with a timestamp match finds the first part's
matches unchanged, then the second part's matches: no match crosses the
boundary and the first part's tail joins the second part's leading
piece. -/
theorem findTsMatch_append (b : Chars) (hb : matchTsAt b ≠ none)
    (u : Chars) :
    (u = [] ∨ u.getLast? = some '\n') →
    findTsMatch (u ++ b) = (match findTsMatch u with
      | some p => some (p.1, p.2.1, p.2.2 ++ b)
      | none => (findTsMatch b).map (fun p => (u ++ p.1, p.2.1, p.2.2))) := by
  induction u with
  | nil =>
    intro _
    show findTsMatch b = (findTsMatch b).map
      (fun p => ([] ++ p.1, p.2.1, p.2.2))
    cases hf : findTsMatch b with
    | none => rfl
    | some p =>
      obtain ⟨p1, m1, r1⟩ := p
      simp
  | cons c t ih =>
    intro hnl
    have hnl' : (c :: t).getLast? = some '\n' := by
      rcases hnl with h | h
      · exact absurd h (List.cons_ne_nil c t)
      · exact h
    rw [List.cons_append, findTsMatch_cons c (t ++ b)]
    cases hm : matchTsAt (c :: (t ++ b)) with
    | some r =>
      have hm' : matchTsAt ((c :: t) ++ b) = some r := by
        rw [List.cons_append]
        exact hm
      rcases matchTsAt_nocross (c :: t) b r (List.cons_ne_nil c t) hnl'
        hb hm' with ⟨r0, h0, hr⟩
      subst hr
      rw [findTsMatch_cons c t, h0]
      have hlen : r0.length ≤ (c :: t).length := by
        rcases matchTsAt_decomp (c :: t) r0 h0 with ⟨m0, hm0, -⟩
        rw [hm0, List.length_append]
        omega
      show some ([], (c :: (t ++ b)).take
          ((c :: (t ++ b)).length - (r0 ++ b).length), r0 ++ b) =
        some ([], (c :: t).take ((c :: t).length - r0.length), r0 ++ b)
      rw [show (c :: (t ++ b)) = (c :: t) ++ b from by
        rw [List.cons_append]]
      rw [List.length_append, List.length_append]
      rw [show (c :: t).length + b.length - (r0.length + b.length) =
        (c :: t).length - r0.length from by omega]
      rw [List.take_append_of_le_length (by omega)]
    | none =>
      have hmu : matchTsAt (c :: t) = none := by
        cases g : matchTsAt (c :: t) with
        | none => rfl
        | some x =>
          have hx := matchTsAt_append (c :: t) b x g
          rw [List.cons_append] at hx
          rw [hx] at hm
          cases hm
      have hnl'' : t = [] ∨ t.getLast? = some '\n' := by
        cases t with
        | nil => exact Or.inl rfl
        | cons d ts =>
          refine Or.inr ?_
          rw [← getLast?_cons_ne c (d :: ts) (by simp)]
          exact hnl'
      rw [findTsMatch_cons c t, hmu, ih hnl'']
      cases hft : findTsMatch t with
      | some q =>
        obtain ⟨q1, qm, qr⟩ := q
        rfl
      | none =>
        cases hfb : findTsMatch b with
        | none => rfl
        | some p =>
          obtain ⟨p1, pm, pr⟩ := p
          show some (c :: (t ++ p1), pm, pr) =
            some ((c :: t) ++ p1, pm, pr)
          rw [List.cons_append]

/-- Scanning the concatenation of a newline-terminated (or empty) part
with a part that begins with a timestamp match yields the first part's
pieces followed by the second part's pieces after its leading empty
piece, and the two match lists concatenated. -/
theorem tsScan_append (b : Chars) (hb : matchTsAt b ≠ none) (u : Chars)
    (hnl : u = [] ∨ u.getLast? = some '\n') :
    tsScan (u ++ b) = ((tsScan u).1 ++ (tsScan b).1.drop 1,
                       (tsScan u).2 ++ (tsScan b).2) := by
  suffices H : ∀ n (u : Chars), u.length = n →
      (u = [] ∨ u.getLast? = some '\n') →
      tsScan (u ++ b) = ((tsScan u).1 ++ (tsScan b).1.drop 1,
        (tsScan u).2 ++ (tsScan b).2) from H u.length u rfl hnl
  intro n
  induction n using Nat.strong_induction_on with
  | _ n ih =>
    intro u hu hnl
    rw [tsScan_eq (u ++ b), findTsMatch_append b hb u hnl]
    cases hf : findTsMatch u with
    | none =>
      have hbne : b ≠ [] := by
        intro h0
        subst h0
        exact hb rfl
      obtain ⟨c, t, hbct⟩ : ∃ c t, b = c :: t := by
        cases b with
        | nil => exact absurd rfl hbne
        | cons c t => exact ⟨c, t, rfl⟩
      cases hmb : matchTsAt b with
      | none => exact absurd hmb hb
      | some rb =>
        have hfb : findTsMatch b =
            some ([], b.take (b.length - rb.length), rb) := by
          rw [hbct, findTsMatch_cons]
          rw [hbct] at hmb
          rw [hmb]
        rw [hfb, tsScan_eq u, hf, tsScan_eq b, hfb]
        simp
    | some p =>
      obtain ⟨pre, m, r⟩ := p
      have hlt := findTsMatch_rest_lt u pre m r hf
      rcases findTsMatch_decomp u pre m r hf with ⟨hdec, hmne⟩
      have hnlr : r = [] ∨ r.getLast? = some '\n' := by
        cases r with
        | nil => exact Or.inl rfl
        | cons x xs =>
          refine Or.inr ?_
          rcases hnl with h | h
          · rw [h] at hf
            cases hf
          · rw [hdec, List.getLast?_append, List.getLast?_append] at h
            cases hgr : (x :: xs).getLast? with
            | none =>
              rw [List.getLast?_eq_none_iff] at hgr
              cases hgr
            | some z =>
              rw [hgr] at h
              have h' : some z = some '\n' := h
              exact h'
      have hr := ih r.length (by omega) r rfl hnlr
      rw [tsScan_eq u, hf]
      show (pre :: (tsScan (r ++ b)).1, m :: (tsScan (r ++ b)).2) = _
      rw [hr]
      rfl

/-- Claim C9 as amended: when the first export ends with a newline (so
that no timestamp match can span the boundary) and the second export
begins with a timestamp match, parsing the concatenation yields exactly
the records of the first export followed by the records of the second,
unchanged, and likewise for the date diagnostics. -/
theorem c9_concat_amended (a b : Chars) (ha : a.getLast? = some '\n')
    (hb : matchTsAt b ≠ none) :
    preprocess (a ++ b) =
      ((preprocess a).1 ++ (preprocess b).1,
       (preprocess a).2 ++ (preprocess b).2) := by
  unfold preprocess
  rw [tsScan_append b hb a (Or.inr ha)]
  simp only []
  rw [List.drop_append_of_le_length (by rw [tsScan_len]; omega)]
  rw [List.map_append]
  rw [List.zip_append (by
    rw [List.length_map, List.length_drop, tsScan_len]
    omega)]
  rw [List.filter_append, List.map_append, List.filter_append]

/-- Witness for the amended claim C9: a newline-terminated first export
concatenated with a second export that begins with a timestamp match
parses to the concatenation of the two parses. -/
theorem c9_concat_amended_witness :
    preprocess ("1/1/23, 10:00 - Alice: x 1\n".toList ++ exportB) =
      ((preprocess "1/1/23, 10:00 - Alice: x 1\n".toList).1 ++
         (preprocess exportB).1,
       (preprocess "1/1/23, 10:00 - Alice: x 1\n".toList).2 ++
         (preprocess exportB).2) :=
  c9_concat_amended "1/1/23, 10:00 - Alice: x 1\n".toList exportB
    (by decide) (by decide)

end WA
